import Mathlib

/-!
Verification of the cubiomes seed-search service (engine.c, api.c).

The engine is embedded shallowly:

* The world-generation library (cubiomes proper) is an opaque oracle: a
  structure of deterministic pure functions, exactly the four capabilities
  engine.c calls.  A `Generator` is modelled by the configuration that
  determines it: the version passed to `setupGenerator` and the
  (dimension, seed) of the last `applySeed`.
* `thread_worker` / `stream_thread_worker` are modelled as small-step state
  machines whose atomic steps are exactly the mutex-protected sections plus
  the purely thread-local segments between them.  A whole multithreaded
  execution of `search_seeds` is the fold of these steps over an arbitrary
  schedule (a list of worker indices); quantifying over schedules ranges over
  all pthread interleavings, since every access to the shared result happens
  inside one of the modelled critical sections.
* C `int`/`int64_t` arithmetic is exact here (no intermediate in engine.c can
  overflow for the representable inputs); C integer division truncates toward
  zero and is rendered as `Int.tdiv`; the arithmetic right shift `x >> 2` is
  rendered as flooring division `Int.fdiv x 4`.
-/

set_option linter.unusedVariables false

namespace Cubiomes

/-- Dimension tag `DIM_OVERWORLD` of the cubiomes library. -/
def DIM_OVERWORLD : Int := 0

/-- A block position: the cubiomes `Pos` struct (`int x, z`). -/
structure Pos where
  x : Int
  z : Int
  deriving DecidableEq

/-- The two fields of the cubiomes `StructureConfig` that engine.c reads:
    `regionSize` (in chunks) and `dim` (the structure's dimension). -/
structure StructureConfig where
  regionSize : Int
  dim : Int
  deriving DecidableEq

/-- `StructureQuery` as engine.c uses it and api.c fills it: a structure type
    tag, a maximum block distance from the origin, and a biome id with `-1`
    meaning "no biome filter". -/
structure StructureQuery where
  type : Int
  max_distance : Int
  biome : Int
  deriving DecidableEq

/-- `SearchRequest` (engine.h): the validated request shared read-only by all
    workers.  The `structures` list holds the first `num_structures` entries
    of the C array. -/
structure SearchRequest where
  mc_version : Int
  seed_start : Int
  seed_end : Int
  max_results : Int
  structures : List StructureQuery
  deriving DecidableEq

/-- Observable state of the C `SearchResult`: the first `count` entries of the
    `seeds` array (as a list, so `count` is the length) and `scanned`. -/
structure SearchResult where
  seeds : List Int
  scanned : Int
  deriving DecidableEq

/-- The C `count` field: length of the observable seeds prefix. -/
def SearchResult.count (r : SearchResult) : Int := r.seeds.length

/-- A cubiomes `Generator` as far as engine.c observes it: its contents are a
    deterministic function of the version given to `setupGenerator` and the
    (dimension, seed) of the most recent `applySeed`. -/
structure Generator where
  mc : Int
  dim : Int
  seed : Int
  deriving DecidableEq

/-- `applySeed(g, dim, seed)`: repoint the generator, keeping its version. -/
def applySeed (g : Generator) (dim seed : Int) : Generator :=
  { mc := g.mc, dim := dim, seed := seed }

/-- The world-generation oracle: the cubiomes calls made by engine.c, as
    deterministic pure functions.  Their internals are out of scope; every
    theorem below holds for an arbitrary oracle. -/
structure Oracle where
  /-- `getStructureConfig(type, mc) — none models a 0 return`. -/
  getStructureConfig : Int → Int → Option StructureConfig
  /-- `getStructurePos(type, mc, seed, rx, rz)` — none models a 0 return. -/
  getStructurePos : Int → Int → Int → Int → Int → Option Pos
  /-- `isViableStructurePos(type, g, x, z, 0)`. -/
  isViableStructurePos : Int → Generator → Int → Int → Bool
  /-- `getBiomeAt(g, scale, x, y, z)`. -/
  getBiomeAt : Generator → Int → Int → Int → Int → Int

/-- `check_biome_filter` (engine.c): accept unconditionally when no biome
    filter is set; otherwise sample the biome at quarter scale in the
    structure's dimension and restore the generator to
    `(DIM_OVERWORLD, seed)`.  When the config lookup fails the C code reads an
    uninitialised `sconf` (undefined behaviour, unreachable from the worker,
    which only calls this after a successful lookup); the embedding reads a
    fixed default there. -/
def check_biome_filter (O : Oracle) (g : Generator) (sq : StructureQuery)
    (mc_version seed : Int) (pos : Pos) : Bool × Generator :=
  if sq.biome < 0 then (true, g)
  else
    let sconf := (O.getStructureConfig sq.type mc_version).getD ⟨0, 0⟩
    let g1 := applySeed g sconf.dim seed
    let biome_at := O.getBiomeAt g1 4 (Int.fdiv pos.x 4) 15 (Int.fdiv pos.z 4)
    let g2 := applySeed g1 DIM_OVERWORLD seed
    (biome_at == sq.biome, g2)

/-- Integers from `lo` to `hi` inclusive (empty when `hi < lo`). -/
def intRange (lo hi : Int) : List Int :=
  (List.range (hi + 1 - lo).toNat).map (fun k : Nat => lo + (k : Int))

/-- One `(rx, rz)` probe of the region loop in `thread_worker`: structure
    position, squared-distance check, viability check, optional biome filter.
    The generator at every probe is `(mc_version, DIM_OVERWORLD, seed)`: it is
    set so at the top of the seed iteration, and `check_biome_filter` restores
    exactly that state. -/
def region_hit (O : Oracle) (req : SearchRequest) (sq : StructureQuery)
    (seed rx rz : Int) : Bool :=
  match O.getStructurePos sq.type req.mc_version seed rx rz with
  | none => false
  | some pos =>
    let d2 := pos.x * pos.x + pos.z * pos.z
    let md := sq.max_distance
    if md * md < d2 then false
    else if !(O.isViableStructurePos sq.type
                ⟨req.mc_version, DIM_OVERWORLD, seed⟩ pos.x pos.z) then false
    else (check_biome_filter O ⟨req.mc_version, DIM_OVERWORLD, seed⟩ sq
            req.mc_version seed pos).1

/-- The per-query search of `thread_worker`: resolve the structure config,
    derive the region radius `max_distance / (regionSize*16) + 2`, and scan
    the square of regions for a hit.  A failed config lookup fails the seed. -/
def query_satisfied (O : Oracle) (req : SearchRequest) (seed : Int)
    (sq : StructureQuery) : Bool :=
  match O.getStructureConfig sq.type req.mc_version with
  | none => false
  | some sconf =>
    let region_blocks := sconf.regionSize * 16
    let max_reg := Int.tdiv sq.max_distance region_blocks + 2
    (intRange (-max_reg) max_reg).any (fun rx =>
      (intRange (-max_reg) max_reg).any (fun rz =>
        region_hit O req sq seed rx rz))

/-- `matches(request, seed, gen)` of the spec: the full structure-query
    conjunction evaluated by `thread_worker` for one seed.  Pure in
    `(O, req, seed)`: the generator is freshly pointed at
    `(DIM_OVERWORLD, seed)` at the top of each seed iteration and every
    intermediate oracle call sees a state determined by `seed` alone. -/
def seed_matches (O : Oracle) (req : SearchRequest) (seed : Int) : Bool :=
  req.structures.all (fun sq => query_satisfied O req seed sq)

/-! ### Range partitioning (`search_seeds`, engine.c lines 436-468) -/

/-- `MAX_THREADS` (engine.h). -/
def MAX_THREADS : Int := 16

/-- `total = seed_end - seed_start + 1`. -/
def totalSeeds (req : SearchRequest) : Int := req.seed_end - req.seed_start + 1

/-- The thread-count clamp of `search_seeds`. -/
def nthreads (req : SearchRequest) : Int :=
  if totalSeeds req < MAX_THREADS then totalSeeds req else MAX_THREADS

/-- `chunk = total / nthreads` (C division truncates toward zero). -/
def chunkSize (req : SearchRequest) : Int :=
  Int.tdiv (totalSeeds req) (nthreads req)

/-- `args[i].seed_start = req->seed_start + i * chunk`. -/
def partLo (req : SearchRequest) (i : Int) : Int :=
  req.seed_start + i * chunkSize req

/-- `args[i].seed_end`: the last worker absorbs the remainder up to
    `seed_end`; the others end one before the next worker's start. -/
def partHi (req : SearchRequest) (i : Int) : Int :=
  if i = nthreads req - 1 then req.seed_end
  else partLo req i + chunkSize req - 1

/-! ### The worker state machine (`thread_worker`) -/

/-- `RESULT_CHECK_INTERVAL` (engine.c): the done-flag poll period. -/
def RESULT_CHECK_INTERVAL : Int := 4096

/-- Control point of a worker between the atomic segments of
    `thread_worker`. -/
inductive Phase
  /-- At the for-loop head for the current `seed`, before the periodic poll. -/
  | top
  /-- Past the poll; about to scan the current seed (thread-local work). -/
  | eval
  /-- The current seed matched; about to take the mutex and publish it. -/
  | append
  /-- Out of the loop; about to add `local_scanned` to the shared total. -/
  | contribute
  /-- Returned. -/
  | finished
  deriving DecidableEq

/-- Worker-local state: the immutable `ThreadArg` sub-range plus the locals of
    `thread_worker` (`seed`, `local_scanned`) and the control point. -/
structure WState where
  seedLo : Int
  seedEnd : Int
  seed : Int
  scanned : Int
  phase : Phase
  deriving DecidableEq

/-- One atomic step of `thread_worker`.  Steps are cut exactly at the
    mutex-protected sections (the done poll, the publish, the final scanned
    contribution); the thread-local segments in between are folded into the
    adjacent step.  `local_scanned & (RESULT_CHECK_INTERVAL-1)` equals
    `local_scanned % RESULT_CHECK_INTERVAL` since the counter is
    non-negative. -/
def thread_worker_step (O : Oracle) (req : SearchRequest)
    (w : WState) (r : SearchResult) : WState × SearchResult :=
  match w.phase with
  | Phase.top =>
      if w.seedEnd < w.seed then ({ w with phase := Phase.contribute }, r)
      else if w.scanned % RESULT_CHECK_INTERVAL = 0 then
        -- lock; done = result->count >= req->max_results; unlock; break if done
        if req.max_results ≤ r.count then ({ w with phase := Phase.contribute }, r)
        else ({ w with phase := Phase.eval }, r)
      else ({ w with phase := Phase.eval }, r)
  | Phase.eval =>
      -- thread-local: local_scanned++; applySeed; evaluate the conjunction
      if seed_matches O req w.seed then
        ({ w with scanned := w.scanned + 1, phase := Phase.append }, r)
      else
        ({ w with scanned := w.scanned + 1, seed := w.seed + 1,
                  phase := Phase.top }, r)
  | Phase.append =>
      -- lock; if (count < max_results) seeds[count++] = seed;
      -- done = count >= max_results; unlock; break if done
      let r1 := if r.count < req.max_results
                then { r with seeds := r.seeds ++ [w.seed] } else r
      if req.max_results ≤ r1.count then ({ w with phase := Phase.contribute }, r1)
      else ({ w with seed := w.seed + 1, phase := Phase.top }, r1)
  | Phase.contribute =>
      -- lock; result->scanned += local_scanned; unlock; return
      ({ w with phase := Phase.finished },
       { r with scanned := r.scanned + w.scanned })
  | Phase.finished => (w, r)

/-- The whole search: shared result plus every worker's local state. -/
structure SysState where
  shared : SearchResult
  workers : List WState
  deriving DecidableEq

/-- Let worker `i` take its next atomic step (no-op on an out-of-range
    index). -/
def sysStep (O : Oracle) (req : SearchRequest) (st : SysState) (i : Nat) :
    SysState :=
  match st.workers[i]? with
  | none => st
  | some w =>
      let p := thread_worker_step O req w st.shared
      ⟨p.2, st.workers.set i p.1⟩

/-- Run a schedule: an arbitrary interleaving of worker steps. -/
def sysRun (O : Oracle) (req : SearchRequest) (st : SysState)
    (sched : List Nat) : SysState :=
  sched.foldl (sysStep O req) st

/-- The state of worker `i` right after `pthread_create`. -/
def initWorker (req : SearchRequest) (i : Int) : WState :=
  { seedLo := partLo req i, seedEnd := partHi req i,
    seed := partLo req i, scanned := 0, phase := Phase.top }

/-- The worker pool spawned by `search_seeds`. -/
def initWorkers (req : SearchRequest) : List WState :=
  (List.range (nthreads req).toNat).map (fun i : Nat => initWorker req (i : Int))

/-- `search_seeds(req, result)` under an explicit interleaving `sched` of the
    worker steps, starting from the caller-supplied `*result`.  An empty range
    returns immediately, leaving `*result` untouched. -/
def search_seeds (O : Oracle) (req : SearchRequest) (init : SearchResult)
    (sched : List Nat) : SearchResult :=
  if totalSeeds req ≤ 0 then init
  else (sysRun O req ⟨init, initWorkers req⟩ sched).shared

/-- All workers have returned (the join point). -/
def allFinished (st : SysState) : Prop :=
  ∀ w ∈ st.workers, w.phase = Phase.finished

instance allFinished.instDecidable (st : SysState) : Decidable (allFinished st) :=
  decidable_of_iff (∀ w ∈ st.workers, w.phase = Phase.finished) Iff.rfl

/-- `sched` is a complete execution of `search_seeds`: by the join point every
    worker has run to its return. -/
def search_completes (O : Oracle) (req : SearchRequest) (init : SearchResult)
    (sched : List Nat) : Prop :=
  totalSeeds req ≤ 0 ∨ allFinished (sysRun O req ⟨init, initWorkers req⟩ sched)

instance search_completes.instDecidable (O : Oracle) (req : SearchRequest)
    (init : SearchResult) (sched : List Nat) :
    Decidable (search_completes O req init sched) :=
  decidable_of_iff
    (totalSeeds req ≤ 0 ∨ allFinished (sysRun O req ⟨init, initWorkers req⟩ sched))
    Iff.rfl

/-! ### The streaming variant (`stream_thread_worker`, `search_seeds_stream`) -/

/-- Shared state of `search_seeds_stream` with a collecting callback:
    `delivered` records the seeds passed to `on_seed` in call order, and the C
    `*found_total` equals `delivered.length` (it is incremented exactly when
    the callback is invoked, inside the same critical section);
    `scanned` is `*scanned_total`. -/
structure StreamShared where
  delivered : List Int
  scanned : Int
  deriving DecidableEq

/-- One atomic step of `stream_thread_worker`; same cut points as
    `thread_worker_step`, with `result->seeds`/`count` replaced by the
    callback invocation and `*found_total`. -/
def stream_thread_worker_step (O : Oracle) (req : SearchRequest)
    (w : WState) (r : StreamShared) : WState × StreamShared :=
  match w.phase with
  | Phase.top =>
      if w.seedEnd < w.seed then ({ w with phase := Phase.contribute }, r)
      else if w.scanned % RESULT_CHECK_INTERVAL = 0 then
        if req.max_results ≤ (r.delivered.length : Int) then
          ({ w with phase := Phase.contribute }, r)
        else ({ w with phase := Phase.eval }, r)
      else ({ w with phase := Phase.eval }, r)
  | Phase.eval =>
      if seed_matches O req w.seed then
        ({ w with scanned := w.scanned + 1, phase := Phase.append }, r)
      else
        ({ w with scanned := w.scanned + 1, seed := w.seed + 1,
                  phase := Phase.top }, r)
  | Phase.append =>
      -- lock; if (*found_total < max_results) { on_seed(seed); (*found_total)++; }
      -- done = *found_total >= max_results; unlock; break if done
      let r1 := if (r.delivered.length : Int) < req.max_results
                then { r with delivered := r.delivered ++ [w.seed] } else r
      if req.max_results ≤ (r1.delivered.length : Int) then
        ({ w with phase := Phase.contribute }, r1)
      else ({ w with seed := w.seed + 1, phase := Phase.top }, r1)
  | Phase.contribute =>
      ({ w with phase := Phase.finished },
       { r with scanned := r.scanned + w.scanned })
  | Phase.finished => (w, r)

/-- Streaming system state. -/
structure StreamSysState where
  shared : StreamShared
  workers : List WState
  deriving DecidableEq

/-- Let worker `i` take its next streaming step. -/
def streamSysStep (O : Oracle) (req : SearchRequest) (st : StreamSysState)
    (i : Nat) : StreamSysState :=
  match st.workers[i]? with
  | none => st
  | some w =>
      let p := stream_thread_worker_step O req w st.shared
      ⟨p.2, st.workers.set i p.1⟩

/-- Run a streaming schedule. -/
def streamRun (O : Oracle) (req : SearchRequest) (st : StreamSysState)
    (sched : List Nat) : StreamSysState :=
  sched.foldl (streamSysStep O req) st

/-- `search_seeds_stream(req, collect, ...)` under schedule `sched`: the
    function zero-initialises its own shared counters, so the delivered list
    starts empty; on an empty range it writes `*scanned_out = 0` and returns
    without invoking the callback. -/
def search_seeds_stream (O : Oracle) (req : SearchRequest)
    (sched : List Nat) : StreamShared :=
  if totalSeeds req ≤ 0 then ⟨[], 0⟩
  else (streamRun O req ⟨⟨[], 0⟩, initWorkers req⟩ sched).shared

/-- All streaming workers have returned. -/
def streamAllFinished (st : StreamSysState) : Prop :=
  ∀ w ∈ st.workers, w.phase = Phase.finished

instance streamAllFinished.instDecidable (st : StreamSysState) :
    Decidable (streamAllFinished st) :=
  decidable_of_iff (∀ w ∈ st.workers, w.phase = Phase.finished) Iff.rfl

/-- `sched` is a complete execution of `search_seeds_stream`. -/
def stream_completes (O : Oracle) (req : SearchRequest)
    (sched : List Nat) : Prop :=
  totalSeeds req ≤ 0 ∨ streamAllFinished (streamRun O req ⟨⟨[], 0⟩, initWorkers req⟩ sched)

/-- View the streaming shared state as a batched result: the C `*found_total`
    corresponds to `count` (the delivered-list length) and `*scanned_total` to
    `scanned`. -/
def StreamShared.toSearch (r : StreamShared) : SearchResult :=
  ⟨r.delivered, r.scanned⟩

/-- View a streaming system state as a batched one. -/
def StreamSysState.toSys (st : StreamSysState) : SysState :=
  ⟨st.shared.toSearch, st.workers⟩

/-! ### Request-validator fragments (`parse_request`, api.c) -/

/-- Outcome of the seed-range checks of `parse_request` (api.c): either an
    error string or acceptance. -/
inductive RangeCheck
  /-- Both checks passed. -/
  | ok
  /-- Rejected: "seed_end must be >= seed_start". -/
  | endBeforeStart
  /-- Rejected: "seed range must not exceed 1 billion". -/
  | tooLarge
  deriving DecidableEq

/-- The two seed-range checks of `parse_request`, in source order. -/
def validate_seed_range (seed_start seed_end : Int) : RangeCheck :=
  if seed_end < seed_start then RangeCheck.endBeforeStart
  else if 1000000000 < seed_end - seed_start then RangeCheck.tooLarge
  else RangeCheck.ok

/-- The C cast `(int)v` of an `int64_t`: wrap into `[-2^31, 2^31)`. -/
def toInt32 (v : Int) : Int := (v + 2 ^ 31) % 2 ^ 32 - 2 ^ 31

/-- `parse_request`'s handling of a structure entry's `max_distance`: the
    value is read as a 64-bit integer, rejected with "max_distance must be
    positive" when ≤ 0, and otherwise stored into the `int` field
    `StructureQuery.max_distance`, truncated by the cast. -/
def validate_max_distance (max_dist : Int) : Option Int :=
  if max_dist ≤ 0 then none else some (toInt32 max_dist)

/-! ### Concrete fixtures used by witnesses and counterexamples -/

/-- A tiny deterministic oracle for concrete executions: every structure type
    has a config with one-chunk regions in the overworld, every region's
    candidate position is the origin, every position is viable, and every
    biome sample returns 1 — so every seed matches an unfiltered query. -/
def testOracle : Oracle where
  getStructureConfig := fun _ _ => some ⟨1, 0⟩
  getStructurePos := fun _ _ _ _ _ => some ⟨0, 0⟩
  isViableStructurePos := fun _ _ _ _ => true
  getBiomeAt := fun _ _ _ _ _ => 1

/-- A two-seed request with one unfiltered structure query; under
    `testOracle` both seeds 0 and 1 match. -/
def testReq : SearchRequest :=
  { mc_version := 1, seed_start := 0, seed_end := 1, max_results := 10,
    structures := [{ type := 0, max_distance := 1, biome := -1 }] }

/-- `testReq` with `max_results = 1`. -/
def testReq1 : SearchRequest :=
  { testReq with max_results := 1 }

/-- A schedule that runs the two workers of `testReq` to completion one after
    the other. -/
def testSched : List Nat :=
  [0, 0, 0, 0, 0, 1, 1, 1, 1, 1]

/-- A second complete schedule for `testReq`, running the workers in the
    opposite order. -/
def testSched2 : List Nat :=
  [1, 1, 1, 1, 1, 0, 0, 0, 0, 0]

/-- A complete schedule for `testReq1` in which worker 0 publishes seed 0
    first and worker 1 then observes the full result and exits. -/
def testSchedA : List Nat :=
  [0, 0, 0, 0, 1, 1]

/-- A complete schedule for `testReq1` in which worker 1 publishes seed 1
    first and worker 0 then observes the full result and exits. -/
def testSchedB : List Nat :=
  [1, 1, 1, 1, 0, 0]

/-! ### Invariants of the worker-pool machine -/

/-- The true match set of a request: all seeds of the inclusive range that
    satisfy the full query conjunction, in ascending order. -/
def matchSeeds (O : Oracle) (req : SearchRequest) : List Int :=
  (intRange req.seed_start req.seed_end).filter (fun s => seed_matches O req s)

/-- Seeds strictly below this bound have been fully handled by the worker:
    its current seed while it is still in the loop, one past its sub-range
    once it has left the loop. -/
def passedBound (w : WState) : Int :=
  match w.phase with
  | Phase.contribute => w.seedEnd + 1
  | Phase.finished => w.seedEnd + 1
  | _ => w.seed

/-- `w` has left its scan loop. -/
def exited (w : WState) : Prop :=
  w.phase = Phase.contribute ∨ w.phase = Phase.finished

/-- Local (thread-confined) invariant of one worker of `thread_worker`. -/
def WInv (O : Oracle) (req : SearchRequest) (w : WState) : Prop :=
  w.seedLo ≤ w.seed ∧ 0 ≤ w.scanned ∧
  (match w.phase with
   | Phase.top => w.scanned = w.seed - w.seedLo ∧ w.seed ≤ w.seedEnd + 1
   | Phase.eval => w.scanned = w.seed - w.seedLo ∧ w.seed ≤ w.seedEnd
   | Phase.append => w.scanned = w.seed - w.seedLo + 1 ∧ w.seed ≤ w.seedEnd ∧
       seed_matches O req w.seed = true
   | Phase.contribute => w.scanned ≤ w.seedEnd - w.seedLo + 1
   | Phase.finished => w.scanned ≤ w.seedEnd - w.seedLo + 1)

/-- Sum of every worker's local scan counter. -/
def sumScanned (st : SysState) : Int :=
  (st.workers.map (fun w => w.scanned)).sum

/-- Sum of the local scan counters already folded into the shared total. -/
def sumContributed (st : SysState) : Int :=
  (st.workers.map (fun w => if w.phase = Phase.finished then w.scanned else 0)).sum

/-- Number of workers currently holding an unpublished match. -/
def numAppend (st : SysState) : Int :=
  (st.workers.map (fun w => if w.phase = Phase.append then (1 : Int) else 0)).sum

/-- The inductive invariant of `search_seeds`'s worker pool, for the shared
    result starting zeroed.  Every field is preserved by every atomic step of
    every worker, so it holds in all reachable states of all interleavings. -/
structure Inv (O : Oracle) (req : SearchRequest) (st : SysState) : Prop where
  /-- One worker per partition. -/
  wlen : st.workers.length = (nthreads req).toNat
  /-- Worker `i` keeps the sub-range it was created with. -/
  wpart : ∀ i : Nat, ∀ h : i < st.workers.length,
      (st.workers[i]).seedLo = partLo req (i : Int) ∧
      (st.workers[i]).seedEnd = partHi req (i : Int)
  /-- Every worker satisfies its local invariant. -/
  wloc : ∀ w ∈ st.workers, WInv O req w
  /-- Published seeds lie in the request range and match. -/
  seeds_ok : ∀ s ∈ st.shared.seeds,
      req.seed_start ≤ s ∧ s ≤ req.seed_end ∧ seed_matches O req s = true
  /-- The result never exceeds `max_results` entries. -/
  count_le : 0 ≤ req.max_results →
      (st.shared.seeds.length : Int) ≤ req.max_results
  /-- No seed is published twice. -/
  nodup : st.shared.seeds.Nodup
  /-- Every published seed belongs to the sub-range of a worker that has moved
      past it (or has left its loop). -/
  prov : ∀ s ∈ st.shared.seeds, ∃ i : Nat, ∃ h : i < st.workers.length,
      (st.workers[i]).seedLo ≤ s ∧ s ≤ (st.workers[i]).seedEnd ∧
      (s < (st.workers[i]).seed ∨ exited (st.workers[i]))
  /-- The shared scanned total is exactly the contributions of the workers
      that have returned. -/
  scanned_sum : st.shared.scanned = sumContributed st
  /-- Published seeds (plus matches in flight) are bounded by seeds scanned. -/
  count_scanned : (st.shared.seeds.length : Int) + numAppend st ≤ sumScanned st
  /-- When `max_results` can hold every match: each worker has either
      published every match it passed, or the whole match set is already
      published. -/
  mcov : ((matchSeeds O req).length : Int) ≤ req.max_results →
      ∀ i : Nat, ∀ h : i < st.workers.length,
      (∀ s, (st.workers[i]).seedLo ≤ s → s < passedBound (st.workers[i]) →
        seed_matches O req s = true → s ∈ st.shared.seeds)
      ∨ (∀ s ∈ matchSeeds O req, s ∈ st.shared.seeds)

/-! ### Partition arithmetic -/

theorem nthreads_pos (req : SearchRequest) (h1 : 1 ≤ totalSeeds req) :
    1 ≤ nthreads req := by
  unfold nthreads MAX_THREADS
  split <;> omega

theorem nthreads_le_total (req : SearchRequest) (h1 : 1 ≤ totalSeeds req) :
    nthreads req ≤ totalSeeds req := by
  unfold nthreads MAX_THREADS
  split <;> omega

theorem nthreads_le_max (req : SearchRequest) (h1 : 1 ≤ totalSeeds req) :
    nthreads req ≤ MAX_THREADS := by
  unfold nthreads MAX_THREADS
  split <;> omega

theorem chunkSize_eq_ediv (req : SearchRequest) (h1 : 1 ≤ totalSeeds req) :
    chunkSize req = totalSeeds req / nthreads req := by
  unfold chunkSize
  exact Int.tdiv_eq_ediv (by omega) (le_of_lt (by exact_mod_cast nthreads_pos req h1))

theorem chunkSize_pos (req : SearchRequest) (h1 : 1 ≤ totalSeeds req) :
    1 ≤ chunkSize req := by
  rw [chunkSize_eq_ediv req h1]
  have hN := nthreads_pos req h1
  have hNT := nthreads_le_total req h1
  rw [Int.le_ediv_iff_mul_le (by omega)]
  omega

theorem nthreads_mul_chunk_le (req : SearchRequest) (h1 : 1 ≤ totalSeeds req) :
    nthreads req * chunkSize req ≤ totalSeeds req := by
  rw [chunkSize_eq_ediv req h1]
  have hN := nthreads_pos req h1
  have h := Int.ediv_add_emod (totalSeeds req) (nthreads req)
  have h2 := Int.emod_nonneg (totalSeeds req) (b := nthreads req) (by omega)
  omega

theorem partLo_zero (req : SearchRequest) : partLo req 0 = req.seed_start := by
  unfold partLo; ring

theorem partLo_succ (req : SearchRequest) (i : Int) :
    partLo req (i + 1) = partLo req i + chunkSize req := by
  unfold partLo; ring

theorem partLo_mono (req : SearchRequest) (h1 : 1 ≤ totalSeeds req)
    {i j : Int} (hij : i ≤ j) : partLo req i ≤ partLo req j := by
  unfold partLo
  have hc := chunkSize_pos req h1
  nlinarith

theorem partHi_last (req : SearchRequest) :
    partHi req (nthreads req - 1) = req.seed_end := by
  unfold partHi
  simp

theorem partHi_mid (req : SearchRequest) {i : Int} (h : i ≠ nthreads req - 1) :
    partHi req i = partLo req i + chunkSize req - 1 := by
  unfold partHi
  simp [h]

theorem partLo_ge_start (req : SearchRequest) (h1 : 1 ≤ totalSeeds req)
    {i : Int} (h0 : 0 ≤ i) : req.seed_start ≤ partLo req i := by
  have := partLo_mono req h1 h0
  rwa [partLo_zero] at this

theorem partLo_le_end (req : SearchRequest) (h1 : 1 ≤ totalSeeds req)
    {i : Int} (h0 : 0 ≤ i) (hN : i ≤ nthreads req - 1) :
    partLo req i ≤ req.seed_end := by
  have hc := chunkSize_pos req h1
  have hmul := nthreads_mul_chunk_le req h1
  have hNp := nthreads_pos req h1
  have h2 : partLo req i ≤ partLo req (nthreads req - 1) := partLo_mono req h1 hN
  have h3 : (nthreads req - 1) * chunkSize req ≤ totalSeeds req - 1 := by nlinarith
  unfold partLo at h2 ⊢
  unfold totalSeeds at h3 hmul
  omega

theorem partHi_le_end (req : SearchRequest) (h1 : 1 ≤ totalSeeds req)
    {i : Int} (h0 : 0 ≤ i) (hN : i ≤ nthreads req - 1) :
    partHi req i ≤ req.seed_end := by
  by_cases hlast : i = nthreads req - 1
  · rw [hlast, partHi_last]
  · rw [partHi_mid req hlast]
    have h2 : i + 1 ≤ nthreads req - 1 := by
      rcases lt_or_le i (nthreads req - 1) with h | h
      · omega
      · exact absurd (le_antisymm hN h) hlast
    have h3 := partLo_le_end req h1 (by omega) h2
    rw [partLo_succ] at h3
    omega

theorem partLo_le_partHi (req : SearchRequest) (h1 : 1 ≤ totalSeeds req)
    {i : Int} (h0 : 0 ≤ i) (hN : i ≤ nthreads req - 1) :
    partLo req i ≤ partHi req i := by
  by_cases hlast : i = nthreads req - 1
  · rw [hlast, partHi_last]
    exact partLo_le_end req h1 (by omega) (by omega)
  · rw [partHi_mid req hlast]
    have hc := chunkSize_pos req h1
    omega

theorem part_disjoint (req : SearchRequest) (h1 : 1 ≤ totalSeeds req)
    {i j : Int} (h0 : 0 ≤ i) (hij : i < j) (hN : j ≤ nthreads req - 1) :
    partHi req i < partLo req j := by
  have hmid : i ≠ nthreads req - 1 := by omega
  rw [partHi_mid req hmid]
  have h2 : partLo req (i + 1) ≤ partLo req j := partLo_mono req h1 (by omega)
  rw [partLo_succ] at h2
  omega

theorem part_cover (req : SearchRequest) (h1 : 1 ≤ totalSeeds req)
    {s : Int} (hlo : req.seed_start ≤ s) (hhi : s ≤ req.seed_end) :
    ∃ i : Int, 0 ≤ i ∧ i ≤ nthreads req - 1 ∧
      partLo req i ≤ s ∧ s ≤ partHi req i := by
  have hc := chunkSize_pos req h1
  have hNp := nthreads_pos req h1
  have hq0 : 0 ≤ (s - req.seed_start) / chunkSize req :=
    Int.ediv_nonneg (by omega) (by omega)
  have hqc : (s - req.seed_start) / chunkSize req * chunkSize req
      ≤ s - req.seed_start := by
    have h := Int.ediv_add_emod (s - req.seed_start) (chunkSize req)
    have h2 := Int.emod_nonneg (s - req.seed_start) (b := chunkSize req) (by omega)
    nlinarith [h, h2]
  have hqc2 : s - req.seed_start
      < ((s - req.seed_start) / chunkSize req + 1) * chunkSize req := by
    have h := Int.ediv_add_emod (s - req.seed_start) (chunkSize req)
    have h2 := Int.emod_lt_of_pos (s - req.seed_start) (b := chunkSize req) (by omega)
    nlinarith [h, h2]
  by_cases hcase : (s - req.seed_start) / chunkSize req ≤ nthreads req - 1
  · refine ⟨(s - req.seed_start) / chunkSize req, hq0, hcase, ?_, ?_⟩
    · unfold partLo; omega
    · by_cases hlast : (s - req.seed_start) / chunkSize req = nthreads req - 1
      · rw [hlast, partHi_last]; exact hhi
      · rw [partHi_mid req hlast]
        unfold partLo
        have hexp : ((s - req.seed_start) / chunkSize req + 1) * chunkSize req
            = (s - req.seed_start) / chunkSize req * chunkSize req
              + chunkSize req := by ring
        omega
  · refine ⟨nthreads req - 1, by omega, le_refl _, ?_, ?_⟩
    · have h2 : (nthreads req - 1) * chunkSize req
          ≤ (s - req.seed_start) / chunkSize req * chunkSize req := by nlinarith
      unfold partLo; omega
    · rw [partHi_last]; exact hhi

theorem part_size_sum_aux (req : SearchRequest) (h1 : 1 ≤ totalSeeds req)
    (n : Nat) (hn : (n : Int) ≤ nthreads req - 1) :
    ((List.range n).map
      (fun i : Nat => partHi req (i : Int) - partLo req (i : Int) + 1)).sum
      = partLo req (n : Int) - req.seed_start := by
  induction n with
  | zero => simp [partLo_zero]
  | succ m ih =>
      rw [List.range_succ, List.map_append, List.sum_append]
      have hm : (m : Int) ≤ nthreads req - 1 := by push_cast at hn ⊢; omega
      have hmid : (m : Int) ≠ nthreads req - 1 := by push_cast at hn; omega
      rw [ih hm]
      simp only [List.map_cons, List.map_nil, List.sum_cons, List.sum_nil]
      rw [partHi_mid req hmid]
      push_cast
      rw [partLo_succ]
      ring

theorem part_size_sum (req : SearchRequest) (h1 : 1 ≤ totalSeeds req) :
    ((List.range (nthreads req).toNat).map
      (fun i : Nat => partHi req (i : Int) - partLo req (i : Int) + 1)).sum
      = totalSeeds req := by
  have hNp := nthreads_pos req h1
  obtain ⟨n, hn⟩ : ∃ n : Nat, (n : Int) = nthreads req - 1 :=
    ⟨(nthreads req - 1).toNat, Int.toNat_of_nonneg (by omega)⟩
  have hN : (nthreads req).toNat = n + 1 := by omega
  rw [hN, List.range_succ, List.map_append, List.sum_append,
      part_size_sum_aux req h1 n (by omega)]
  simp only [List.map_cons, List.map_nil, List.sum_cons, List.sum_nil]
  rw [hn, partHi_last]
  unfold totalSeeds
  omega

/-! ### List and match-set helpers -/

theorem mem_intRange {lo hi s : Int} : s ∈ intRange lo hi ↔ lo ≤ s ∧ s ≤ hi := by
  unfold intRange
  simp only [List.mem_map, List.mem_range]
  constructor
  · rintro ⟨k, hk, rfl⟩
    omega
  · rintro ⟨hl, hr⟩
    refine ⟨(s - lo).toNat, by omega, by omega⟩

theorem intRange_nodup (lo hi : Int) : (intRange lo hi).Nodup := by
  unfold intRange
  refine List.Nodup.map (fun a b hab => ?_) (List.nodup_range _)
  omega

theorem mem_matchSeeds {O : Oracle} {req : SearchRequest} {s : Int} :
    s ∈ matchSeeds O req ↔
      req.seed_start ≤ s ∧ s ≤ req.seed_end ∧ seed_matches O req s = true := by
  unfold matchSeeds
  rw [List.mem_filter, mem_intRange]
  tauto

theorem matchSeeds_nodup (O : Oracle) (req : SearchRequest) :
    (matchSeeds O req).Nodup :=
  List.Nodup.filter _ (intRange_nodup _ _)

theorem sum_map_set {α : Type} (f : α → Int) :
    ∀ (l : List α) (i : Nat) (a : α) (h : i < l.length),
    ((l.set i a).map f).sum = (l.map f).sum + f a - f l[i]
  | x :: xs, 0, a, _ => by
      simp only [List.set, List.map_cons, List.sum_cons, List.getElem_cons_zero]
      ring
  | x :: xs, j + 1, a, h => by
      simp only [List.set, List.map_cons, List.sum_cons, List.getElem_cons_succ]
      rw [sum_map_set f xs j a (by simpa using h)]
      ring

theorem matchSeeds_subset_of_count_ge (O : Oracle) (req : SearchRequest)
    (seeds : List Int)
    (hsub : ∀ s ∈ seeds, s ∈ matchSeeds O req)
    (hnd : seeds.Nodup)
    (hcnt : (matchSeeds O req).length ≤ seeds.length) :
    ∀ s ∈ matchSeeds O req, s ∈ seeds := by
  intro s hs
  have h1 : seeds.toFinset ⊆ (matchSeeds O req).toFinset := by
    intro x hx
    rw [List.mem_toFinset] at hx ⊢
    exact hsub x hx
  have h2 : (matchSeeds O req).toFinset.card ≤ seeds.toFinset.card := by
    rw [List.toFinset_card_of_nodup hnd]
    exact le_trans (List.toFinset_card_le _) hcnt
  have h3 := Finset.eq_of_subset_of_card_le h1 h2
  have h4 : s ∈ (matchSeeds O req).toFinset := List.mem_toFinset.mpr hs
  rw [← h3, List.mem_toFinset] at h4
  exact h4

/-! ### Case analysis of one worker step -/

theorem thread_worker_step_spec (O : Oracle) (req : SearchRequest)
    (w : WState) (r : SearchResult) :
    (w.phase = Phase.top ∧ w.seedEnd < w.seed ∧
       thread_worker_step O req w r = ({ w with phase := Phase.contribute }, r)) ∨
    (w.phase = Phase.top ∧ ¬ w.seedEnd < w.seed ∧
       w.scanned % RESULT_CHECK_INTERVAL = 0 ∧ req.max_results ≤ r.count ∧
       thread_worker_step O req w r = ({ w with phase := Phase.contribute }, r)) ∨
    (w.phase = Phase.top ∧ ¬ w.seedEnd < w.seed ∧
       thread_worker_step O req w r = ({ w with phase := Phase.eval }, r)) ∨
    (w.phase = Phase.eval ∧ seed_matches O req w.seed = true ∧
       thread_worker_step O req w r =
         ({ w with scanned := w.scanned + 1, phase := Phase.append }, r)) ∨
    (w.phase = Phase.eval ∧ seed_matches O req w.seed = false ∧
       thread_worker_step O req w r =
         ({ w with scanned := w.scanned + 1, seed := w.seed + 1,
                   phase := Phase.top }, r)) ∨
    (w.phase = Phase.append ∧ r.count < req.max_results ∧
       req.max_results ≤ r.count + 1 ∧
       thread_worker_step O req w r =
         ({ w with phase := Phase.contribute },
          { r with seeds := r.seeds ++ [w.seed] })) ∨
    (w.phase = Phase.append ∧ r.count < req.max_results ∧
       ¬ req.max_results ≤ r.count + 1 ∧
       thread_worker_step O req w r =
         ({ w with seed := w.seed + 1, phase := Phase.top },
          { r with seeds := r.seeds ++ [w.seed] })) ∨
    (w.phase = Phase.append ∧ ¬ r.count < req.max_results ∧
       req.max_results ≤ r.count ∧
       thread_worker_step O req w r = ({ w with phase := Phase.contribute }, r)) ∨
    (w.phase = Phase.contribute ∧
       thread_worker_step O req w r =
         ({ w with phase := Phase.finished },
          { r with scanned := r.scanned + w.scanned })) ∨
    (w.phase = Phase.finished ∧ thread_worker_step O req w r = (w, r)) := by
  cases hph : w.phase with
  | top =>
      by_cases ha : w.seedEnd < w.seed
      · exact Or.inl ⟨rfl, ha, by simp [thread_worker_step, hph, ha]⟩
      · by_cases hb : w.scanned % RESULT_CHECK_INTERVAL = 0
        · by_cases hc : req.max_results ≤ r.count
          · exact Or.inr (Or.inl ⟨rfl, ha, hb, hc,
              by simp [thread_worker_step, hph, ha, hb, hc]⟩)
          · exact Or.inr (Or.inr (Or.inl ⟨rfl, ha,
              by simp [thread_worker_step, hph, ha, hb, hc]⟩))
        · exact Or.inr (Or.inr (Or.inl ⟨rfl, ha,
            by simp [thread_worker_step, hph, ha, hb]⟩))
  | eval =>
      cases hm : seed_matches O req w.seed with
      | true =>
          exact Or.inr (Or.inr (Or.inr (Or.inl ⟨rfl, rfl,
            by simp [thread_worker_step, hph, hm]⟩)))
      | false =>
          exact Or.inr (Or.inr (Or.inr (Or.inr (Or.inl ⟨rfl, rfl,
            by simp [thread_worker_step, hph, hm]⟩))))
  | append =>
      by_cases ha : r.count < req.max_results
      · have hlen : ({ r with seeds := r.seeds ++ [w.seed] } : SearchResult).count
            = r.count + 1 := by
          unfold SearchResult.count
          simp
        by_cases hb : req.max_results ≤ r.count + 1
        · refine Or.inr (Or.inr (Or.inr (Or.inr (Or.inr (Or.inl
            ⟨rfl, ha, hb, ?_⟩)))))
          have hc : req.max_results
              ≤ ({ r with seeds := r.seeds ++ [w.seed] } : SearchResult).count := by
            rw [hlen]; exact hb
          simp only [thread_worker_step, hph, if_pos ha, if_pos hc]
        · refine Or.inr (Or.inr (Or.inr (Or.inr (Or.inr (Or.inr (Or.inl
            ⟨rfl, ha, hb, ?_⟩))))))
          have hc : ¬ req.max_results
              ≤ ({ r with seeds := r.seeds ++ [w.seed] } : SearchResult).count := by
            rw [hlen]; exact hb
          simp only [thread_worker_step, hph, if_pos ha, if_neg hc]
      · refine Or.inr (Or.inr (Or.inr (Or.inr (Or.inr (Or.inr (Or.inr (Or.inl
          ⟨rfl, ha, by omega, ?_⟩)))))))
        simp only [thread_worker_step, hph, if_neg ha, if_pos (show req.max_results ≤ r.count by omega)]
  | contribute =>
      refine Or.inr (Or.inr (Or.inr (Or.inr (Or.inr (Or.inr (Or.inr (Or.inr
        (Or.inl ⟨rfl, by simp [thread_worker_step, hph]⟩))))))))
  | finished =>
      exact Or.inr (Or.inr (Or.inr (Or.inr (Or.inr (Or.inr (Or.inr (Or.inr
        (Or.inr ⟨rfl, by simp [thread_worker_step, hph]⟩))))))))

/-! ### Invariant preservation -/

theorem passedBound_append {w : WState} (h : w.phase = Phase.append) :
    passedBound w = w.seed := by
  unfold passedBound
  rw [h]

theorem passedBound_top {w : WState} (h : w.phase = Phase.top) :
    passedBound w = w.seed := by
  unfold passedBound
  rw [h]

theorem passedBound_eval {w : WState} (h : w.phase = Phase.eval) :
    passedBound w = w.seed := by
  unfold passedBound
  rw [h]

theorem passedBound_contribute {w : WState} (h : w.phase = Phase.contribute) :
    passedBound w = w.seedEnd + 1 := by
  unfold passedBound
  rw [h]

theorem not_exited {w : WState}
    (h : w.phase = Phase.top ∨ w.phase = Phase.eval ∨ w.phase = Phase.append) :
    ¬ exited w := by
  intro hex
  have hex' : w.phase = Phase.contribute ∨ w.phase = Phase.finished := hex
  rcases h with h | h | h <;> rcases hex' with he | he <;> rw [h] at he <;>
    exact Phase.noConfusion he

theorem WInv_top_parts {O : Oracle} {req : SearchRequest} {w : WState}
    (h : WInv O req w) (hph : w.phase = Phase.top) :
    w.seedLo ≤ w.seed ∧ 0 ≤ w.scanned ∧
      w.scanned = w.seed - w.seedLo ∧ w.seed ≤ w.seedEnd + 1 := by
  obtain ⟨a, b, c⟩ := h
  rw [hph] at c
  exact ⟨a, b, c⟩

theorem WInv_eval_parts {O : Oracle} {req : SearchRequest} {w : WState}
    (h : WInv O req w) (hph : w.phase = Phase.eval) :
    w.seedLo ≤ w.seed ∧ 0 ≤ w.scanned ∧
      w.scanned = w.seed - w.seedLo ∧ w.seed ≤ w.seedEnd := by
  obtain ⟨a, b, c⟩ := h
  rw [hph] at c
  exact ⟨a, b, c⟩

theorem WInv_append_parts {O : Oracle} {req : SearchRequest} {w : WState}
    (h : WInv O req w) (hph : w.phase = Phase.append) :
    w.seedLo ≤ w.seed ∧ 0 ≤ w.scanned ∧
      w.scanned = w.seed - w.seedLo + 1 ∧ w.seed ≤ w.seedEnd ∧
      seed_matches O req w.seed = true := by
  obtain ⟨a, b, c⟩ := h
  rw [hph] at c
  exact ⟨a, b, c⟩

theorem inv_set_local (O : Oracle) (req : SearchRequest)
    (st : SysState) (hinv : Inv O req st) (i : Nat)
    (hi : i < st.workers.length) (w' : WState)
    (hLo : w'.seedLo = (st.workers[i]).seedLo)
    (hEnd : w'.seedEnd = (st.workers[i]).seedEnd)
    (hW : WInv O req w')
    (hseed : (st.workers[i]).seed ≤ w'.seed)
    (hexit : exited (st.workers[i]) → exited w')
    (hdelta : (if w'.phase = Phase.append then (1 : Int) else 0)
        - (if (st.workers[i]).phase = Phase.append then (1 : Int) else 0)
        ≤ w'.scanned - (st.workers[i]).scanned)
    (hfin : (if w'.phase = Phase.finished then w'.scanned else 0)
        = (if (st.workers[i]).phase = Phase.finished
           then (st.workers[i]).scanned else 0))
    (hmc : ((matchSeeds O req).length : Int) ≤ req.max_results →
        ((∀ s, (st.workers[i]).seedLo ≤ s → s < passedBound (st.workers[i]) →
          seed_matches O req s = true → s ∈ st.shared.seeds)
        ∨ (∀ s ∈ matchSeeds O req, s ∈ st.shared.seeds)) →
        ((∀ s, w'.seedLo ≤ s → s < passedBound w' →
          seed_matches O req s = true → s ∈ st.shared.seeds)
        ∨ (∀ s ∈ matchSeeds O req, s ∈ st.shared.seeds))) :
    Inv O req ⟨st.shared, st.workers.set i w'⟩ := by
  refine ⟨?_, ?_, ?_, ?_, ?_, ?_, ?_, ?_, ?_, ?_⟩
  · rw [List.length_set]
    exact hinv.wlen
  · intro j hj
    rw [List.length_set] at hj
    rw [List.getElem_set]
    split
    · next hij =>
        subst hij
        obtain ⟨hp1, hp2⟩ := hinv.wpart i hi
        exact ⟨hLo.trans hp1, hEnd.trans hp2⟩
    · exact hinv.wpart j hj
  · intro w'' hmem
    rcases List.mem_or_eq_of_mem_set hmem with h | h
    · exact hinv.wloc w'' h
    · rw [h]; exact hW
  · exact hinv.seeds_ok
  · exact hinv.count_le
  · exact hinv.nodup
  · intro s hs
    obtain ⟨j, hj, h1, h2, h3⟩ := hinv.prov s hs
    refine ⟨j, by rw [List.length_set]; exact hj, ?_⟩
    rw [List.getElem_set]
    split
    · next hij =>
        subst hij
        refine ⟨hLo ▸ h1, hEnd ▸ h2, ?_⟩
        rcases h3 with h3 | h3
        · exact Or.inl (lt_of_lt_of_le h3 hseed)
        · exact Or.inr (hexit h3)
    · exact ⟨h1, h2, h3⟩
  · show st.shared.scanned = sumContributed ⟨st.shared, st.workers.set i w'⟩
    unfold sumContributed
    rw [show (⟨st.shared, st.workers.set i w'⟩ : SysState).workers
          = st.workers.set i w' from rfl,
        sum_map_set _ st.workers i w' hi]
    have := hinv.scanned_sum
    unfold sumContributed at this
    omega
  · show ((st.shared.seeds.length : Int))
        + numAppend ⟨st.shared, st.workers.set i w'⟩
        ≤ sumScanned ⟨st.shared, st.workers.set i w'⟩
    unfold numAppend sumScanned
    rw [show (⟨st.shared, st.workers.set i w'⟩ : SysState).workers
          = st.workers.set i w' from rfl,
        sum_map_set _ st.workers i w' hi,
        sum_map_set _ st.workers i w' hi]
    have h0 := hinv.count_scanned
    unfold numAppend sumScanned at h0
    omega
  · intro hM j hj
    rw [List.length_set] at hj
    rw [List.getElem_set]
    split
    · next hij =>
        subst hij
        exact hmc hM (hinv.mcov hM i hi)
    · exact hinv.mcov hM j hj

theorem inv_set_contribute (O : Oracle) (req : SearchRequest)
    (st : SysState) (hinv : Inv O req st) (i : Nat)
    (hi : i < st.workers.length)
    (hph : (st.workers[i]).phase = Phase.contribute) :
    Inv O req
      ⟨{ st.shared with
           scanned := st.shared.scanned + (st.workers[i]).scanned },
       st.workers.set i { st.workers[i] with phase := Phase.finished }⟩ := by
  have hWold := hinv.wloc (st.workers[i]) (List.getElem_mem hi)
  refine ⟨?_, ?_, ?_, ?_, ?_, ?_, ?_, ?_, ?_, ?_⟩
  · rw [List.length_set]
    exact hinv.wlen
  · intro j hj
    rw [List.length_set] at hj
    rw [List.getElem_set]
    split
    · next hij =>
        subst hij
        exact hinv.wpart i hi
    · exact hinv.wpart j hj
  · intro w'' hmem
    rcases List.mem_or_eq_of_mem_set hmem with h | h
    · exact hinv.wloc w'' h
    · rw [h]
      obtain ⟨ha, hb, hc⟩ := hWold
      rw [hph] at hc
      exact ⟨ha, hb, hc⟩
  · exact hinv.seeds_ok
  · exact hinv.count_le
  · exact hinv.nodup
  · intro s hs
    obtain ⟨j, hj, h1, h2, h3⟩ := hinv.prov s hs
    refine ⟨j, by rw [List.length_set]; exact hj, ?_⟩
    rw [List.getElem_set]
    split
    · next hij =>
        subst hij
        exact ⟨h1, h2, Or.inr (Or.inr rfl)⟩
    · exact ⟨h1, h2, h3⟩
  · show st.shared.scanned + (st.workers[i]).scanned
        = sumContributed ⟨_, st.workers.set i _⟩
    unfold sumContributed
    rw [show (⟨{ st.shared with
           scanned := st.shared.scanned + (st.workers[i]).scanned },
        st.workers.set i { st.workers[i] with phase := Phase.finished }⟩
          : SysState).workers
          = st.workers.set i { st.workers[i] with phase := Phase.finished }
          from rfl,
        sum_map_set _ st.workers i _ hi]
    have h0 := hinv.scanned_sum
    unfold sumContributed at h0
    simp [hph]
    omega
  · show ((st.shared.seeds.length : Int)) + numAppend _ ≤ sumScanned _
    unfold numAppend sumScanned
    rw [show (⟨{ st.shared with
           scanned := st.shared.scanned + (st.workers[i]).scanned },
        st.workers.set i { st.workers[i] with phase := Phase.finished }⟩
          : SysState).workers
          = st.workers.set i { st.workers[i] with phase := Phase.finished }
          from rfl,
        sum_map_set _ st.workers i _ hi,
        sum_map_set _ st.workers i _ hi]
    have h0 := hinv.count_scanned
    unfold numAppend sumScanned at h0
    simp [hph]
    omega
  · intro hM j hj
    rw [List.length_set] at hj
    rw [List.getElem_set]
    split
    · next hij =>
        subst hij
        rcases hinv.mcov hM i hi with h | h
        · left
          intro s hs1 hs2 hsm
          refine h s hs1 ?_ hsm
          unfold passedBound at hs2 ⊢
          rw [hph]
          simpa using hs2
        · exact Or.inr h
    · exact hinv.mcov hM j hj

theorem inv_set_append (O : Oracle) (req : SearchRequest)
    (h1 : 1 ≤ totalSeeds req)
    (st : SysState) (hinv : Inv O req st) (i : Nat)
    (hi : i < st.workers.length)
    (hph : (st.workers[i]).phase = Phase.append)
    (hcnt : st.shared.count < req.max_results)
    (w' : WState)
    (hw' : w' = { st.workers[i] with phase := Phase.contribute }
         ∨ w' = { st.workers[i] with
                  seed := (st.workers[i]).seed + 1, phase := Phase.top })
    (hdone : w' = { st.workers[i] with phase := Phase.contribute } →
        req.max_results ≤ st.shared.count + 1) :
    Inv O req
      ⟨{ st.shared with seeds := st.shared.seeds ++ [(st.workers[i]).seed] },
       st.workers.set i w'⟩ := by
  have hWold := hinv.wloc (st.workers[i]) (List.getElem_mem hi)
  obtain ⟨hwlo, hwsc, hwph⟩ := hWold
  rw [hph] at hwph
  obtain ⟨hsc, hsehi, hsm⟩ := hwph
  obtain ⟨hplo, hphi⟩ := hinv.wpart i hi
  have hN : (i : Int) ≤ nthreads req - 1 := by
    have := hinv.wlen
    have h2 : i < (nthreads req).toNat := by omega
    omega
  have hstart : req.seed_start ≤ (st.workers[i]).seed := by
    have := partLo_ge_start req h1 (i := (i : Int)) (by omega)
    omega
  have hend : (st.workers[i]).seed ≤ req.seed_end := by
    have := partHi_le_end req h1 (i := (i : Int)) (by omega) hN
    omega
  -- the published seed is new: it cannot already be in the shared list
  have hfresh : (st.workers[i]).seed ∉ st.shared.seeds := by
    intro hmem
    obtain ⟨j, hj, hj1, hj2, hj3⟩ := hinv.prov (st.workers[i]).seed hmem
    by_cases hij : j = i
    · subst hij
      rcases hj3 with h | h
      · omega
      · rw [exited, hph] at h
        rcases h with h | h <;> exact Phase.noConfusion h
    · obtain ⟨hqlo, hqhi⟩ := hinv.wpart j hj
      have hNj : (j : Int) ≤ nthreads req - 1 := by
        have := hinv.wlen
        have h2 : j < (nthreads req).toNat := by omega
        omega
      rcases Nat.lt_or_ge j i with hlt | hge
      · have := part_disjoint req h1 (i := (j : Int)) (j := (i : Int))
          (by omega) (by omega) hN
        omega
      · have hlt : i < j := by omega
        have := part_disjoint req h1 (i := (i : Int)) (j := (j : Int))
          (by omega) (by omega) hNj
        omega
  have hseeds_ok : ∀ s ∈ st.shared.seeds ++ [(st.workers[i]).seed],
      req.seed_start ≤ s ∧ s ≤ req.seed_end ∧ seed_matches O req s = true := by
    intro s hs
    rcases List.mem_append.mp hs with hs | hs
    · exact hinv.seeds_ok s hs
    · rw [List.mem_singleton] at hs
      subst hs
      exact ⟨hstart, hend, hsm⟩
  have hnodup : (st.shared.seeds ++ [(st.workers[i]).seed]).Nodup := by
    rw [List.nodup_append]
    refine ⟨hinv.nodup, List.nodup_singleton _, ?_⟩
    intro s hs hs'
    rw [List.mem_singleton] at hs'
    subst hs'
    exact hfresh hs
  have hw'lo : w'.seedLo = (st.workers[i]).seedLo := by
    rcases hw' with h | h <;> rw [h]
  have hw'end : w'.seedEnd = (st.workers[i]).seedEnd := by
    rcases hw' with h | h <;> rw [h]
  have hw'sc : w'.scanned = (st.workers[i]).scanned := by
    rcases hw' with h | h <;> rw [h]
  have hw'seed : (st.workers[i]).seed ≤ w'.seed := by
    rcases hw' with h | h <;> rw [h] <;> simp
  refine ⟨?_, ?_, ?_, ?_, ?_, ?_, ?_, ?_, ?_, ?_⟩
  · rw [List.length_set]
    exact hinv.wlen
  · intro j hj
    rw [List.length_set] at hj
    rw [List.getElem_set]
    split
    · next hij =>
        subst hij
        exact ⟨hw'lo.trans hplo, hw'end.trans hphi⟩
    · exact hinv.wpart j hj
  · intro w'' hmem
    rcases List.mem_or_eq_of_mem_set hmem with h | h
    · exact hinv.wloc w'' h
    · rw [h]
      rcases hw' with he | he <;> rw [he]
      · refine ⟨?_, ?_, ?_⟩
        · show (st.workers[i]).seedLo ≤ (st.workers[i]).seed
          exact hwlo
        · show (0 : Int) ≤ (st.workers[i]).scanned
          exact hwsc
        · show (st.workers[i]).scanned
              ≤ (st.workers[i]).seedEnd - (st.workers[i]).seedLo + 1
          omega
      · refine ⟨?_, ?_, ?_, ?_⟩
        · show (st.workers[i]).seedLo ≤ (st.workers[i]).seed + 1
          omega
        · show (0 : Int) ≤ (st.workers[i]).scanned
          exact hwsc
        · show (st.workers[i]).scanned
              = (st.workers[i]).seed + 1 - (st.workers[i]).seedLo
          omega
        · show (st.workers[i]).seed + 1 ≤ (st.workers[i]).seedEnd + 1
          omega
  · exact hseeds_ok
  · intro hmr
    have h0 := hinv.count_le hmr
    unfold SearchResult.count at hcnt
    simp only [List.length_append, List.length_singleton]
    push_cast
    omega
  · exact hnodup
  · intro s hs
    rcases List.mem_append.mp hs with hsold | hsnew
    · obtain ⟨j, hj, h1', h2', h3'⟩ := hinv.prov s hsold
      refine ⟨j, by rw [List.length_set]; exact hj, ?_⟩
      rw [List.getElem_set]
      split
      · next hij =>
          subst hij
          refine ⟨hw'lo ▸ h1', hw'end ▸ h2', ?_⟩
          rcases h3' with h | h
          · exact Or.inl (lt_of_lt_of_le h hw'seed)
          · rw [exited, hph] at h
            rcases h with h | h <;> exact Phase.noConfusion h
      · exact ⟨h1', h2', h3'⟩
    · rw [List.mem_singleton] at hsnew
      subst hsnew
      refine ⟨i, by rw [List.length_set]; exact hi, ?_⟩
      rw [List.getElem_set, if_pos rfl, hw'lo, hw'end]
      refine ⟨hwlo, hsehi, ?_⟩
      rcases hw' with he | he
      · exact Or.inr (Or.inl (by rw [he]))
      · exact Or.inl (by rw [he]; simp)
  · show st.shared.scanned = sumContributed _
    unfold sumContributed
    rw [show (⟨{ st.shared with seeds := st.shared.seeds ++ [(st.workers[i]).seed] },
        st.workers.set i w'⟩ : SysState).workers = st.workers.set i w' from rfl,
        sum_map_set _ st.workers i _ hi]
    have h0 := hinv.scanned_sum
    unfold sumContributed at h0
    have hfw : (if w'.phase = Phase.finished then w'.scanned else 0)
        = (if (st.workers[i]).phase = Phase.finished
           then (st.workers[i]).scanned else 0) := by
      rw [hph]
      rcases hw' with he | he <;> rw [he] <;> simp
    omega
  · show ((st.shared.seeds ++ [(st.workers[i]).seed]).length : Int)
        + numAppend _ ≤ sumScanned _
    unfold numAppend sumScanned
    rw [show (⟨{ st.shared with seeds := st.shared.seeds ++ [(st.workers[i]).seed] },
        st.workers.set i w'⟩ : SysState).workers = st.workers.set i w' from rfl,
        sum_map_set _ st.workers i _ hi,
        sum_map_set _ st.workers i _ hi]
    have h0 := hinv.count_scanned
    unfold numAppend sumScanned at h0
    have ha1 : (if (st.workers[i]).phase = Phase.append then (1 : Int) else 0)
        = 1 := by rw [hph]; simp
    have ha2 : (if w'.phase = Phase.append then (1 : Int) else 0) = 0 := by
      rcases hw' with he | he <;> rw [he] <;> simp
    simp only [List.length_append, List.length_singleton]
    push_cast
    omega
  · intro hM j hj
    rw [List.length_set] at hj
    rw [List.getElem_set]
    have hmono : ∀ s ∈ st.shared.seeds,
        s ∈ st.shared.seeds ++ [(st.workers[i]).seed] := by
      intro s hs
      exact List.mem_append.mpr (Or.inl hs)
    split
    · next hij =>
        subst hij
        rcases hw' with he | he
        · -- the result became full: the whole match set is published
          right
          have hc2 : req.max_results ≤ st.shared.count + 1 := hdone he
          refine matchSeeds_subset_of_count_ge O req _ ?_ hnodup ?_
          · intro s hs
            obtain ⟨u1, u2, u3⟩ := hseeds_ok s hs
            exact mem_matchSeeds.mpr ⟨u1, u2, u3⟩
          · have h0 := hinv.count_le (le_trans (by positivity) hM)
            unfold SearchResult.count at hc2
            simp only [List.length_append, List.length_singleton]
            omega
        · rcases hinv.mcov hM i hi with h | h
          · left
            intro s hs1 hs2 hsm'
            rw [he] at hs1 hs2
            rw [passedBound_top (w := { st.workers[i] with
                  seed := (st.workers[i]).seed + 1, phase := Phase.top }) rfl]
              at hs2
            rw [passedBound_append hph] at h
            by_cases hlast : s = (st.workers[i]).seed
            · subst hlast
              exact List.mem_append.mpr (Or.inr (List.mem_singleton.mpr rfl))
            · refine hmono s (h s hs1 ?_ hsm')
              change s < (st.workers[i]).seed + 1 at hs2
              omega
          · exact Or.inr (fun s hs => hmono s (h s hs))
    · rcases hinv.mcov hM j hj with h | h
      · exact Or.inl (fun s hs1 hs2 hsm' => hmono s (h s hs1 hs2 hsm'))
      · exact Or.inr (fun s hs => hmono s (h s hs))

/-- Every atomic step of every worker preserves the pool invariant: `Inv`
    holds in every reachable state of every interleaving. -/
theorem inv_preserved (O : Oracle) (req : SearchRequest)
    (h1 : 1 ≤ totalSeeds req) (st : SysState) (hinv : Inv O req st)
    (i : Nat) : Inv O req (sysStep O req st i) := by
  unfold sysStep
  cases hw : st.workers[i]? with
  | none => exact hinv
  | some w =>
    obtain ⟨hi, hwi⟩ := List.getElem?_eq_some.mp hw
    subst hwi
    have hmem := List.getElem_mem hi
    show Inv O req
      ⟨(thread_worker_step O req (st.workers[i]) st.shared).2,
       st.workers.set i (thread_worker_step O req (st.workers[i]) st.shared).1⟩
    rcases thread_worker_step_spec O req (st.workers[i]) st.shared with
      ⟨hph, hlt, heq⟩ | ⟨hph, hge, hmod, hfull, heq⟩ | ⟨hph, hge, heq⟩ |
      ⟨hph, hm, heq⟩ | ⟨hph, hm, heq⟩ |
      ⟨hph, hc1, hc2, heq⟩ | ⟨hph, hc1, hc2, heq⟩ | ⟨hph, hc1, hc2, heq⟩ |
      ⟨hph, heq⟩ | ⟨hph, heq⟩
    -- 1: loop bound reached, move to the contribution point
    · rw [heq]
      obtain ⟨ha, hb, hc, hd⟩ := WInv_top_parts (hinv.wloc _ hmem) hph
      refine inv_set_local O req st hinv i hi
        { st.workers[i] with phase := Phase.contribute } rfl rfl ?_ le_rfl
        (fun _ => Or.inl rfl) (by simp [hph]) (by simp [hph]) ?_
      · refine ⟨ha, hb, ?_⟩
        show (st.workers[i]).scanned
            ≤ (st.workers[i]).seedEnd - (st.workers[i]).seedLo + 1
        omega
      · intro hM hold
        rcases hold with hcov | hfull
        · left
          intro s hs1 hs2 hsm
          simp only [passedBound_top hph] at hcov
          rw [passedBound_contribute rfl] at hs2
          change s < (st.workers[i]).seedEnd + 1 at hs2
          exact hcov s hs1 (by omega) hsm
        · exact Or.inr hfull
    -- 2: done flag observed at the poll, exit early
    · rw [heq]
      obtain ⟨ha, hb, hc, hd⟩ := WInv_top_parts (hinv.wloc _ hmem) hph
      refine inv_set_local O req st hinv i hi
        { st.workers[i] with phase := Phase.contribute } rfl rfl ?_ le_rfl
        (fun _ => Or.inl rfl) (by simp [hph]) (by simp [hph]) ?_
      · refine ⟨ha, hb, ?_⟩
        show (st.workers[i]).scanned
            ≤ (st.workers[i]).seedEnd - (st.workers[i]).seedLo + 1
        omega
      · intro hM hold
        right
        refine matchSeeds_subset_of_count_ge O req _ ?_ hinv.nodup ?_
        · intro s hs
          obtain ⟨u1, u2, u3⟩ := hinv.seeds_ok s hs
          exact mem_matchSeeds.mpr ⟨u1, u2, u3⟩
        · unfold SearchResult.count at hfull
          omega
    -- 3: poll passed (or skipped), move to the scan
    · rw [heq]
      obtain ⟨ha, hb, hc, hd⟩ := WInv_top_parts (hinv.wloc _ hmem) hph
      refine inv_set_local O req st hinv i hi
        { st.workers[i] with phase := Phase.eval } rfl rfl ?_ le_rfl
        (fun hex => absurd hex (not_exited (Or.inl hph)))
        (by simp [hph]) (by simp [hph]) ?_
      · refine ⟨ha, hb, ?_, ?_⟩
        · show (st.workers[i]).scanned
              = (st.workers[i]).seed - (st.workers[i]).seedLo
          exact hc
        · show (st.workers[i]).seed ≤ (st.workers[i]).seedEnd
          omega
      · intro hM hold
        rcases hold with hcov | hfull
        · left
          intro s hs1 hs2 hsm
          simp only [passedBound_top hph] at hcov
          rw [passedBound_eval rfl] at hs2
          change s < (st.workers[i]).seed at hs2
          exact hcov s hs1 hs2 hsm
        · exact Or.inr hfull
    -- 4: the seed matches, move to the publish point
    · rw [heq]
      obtain ⟨ha, hb, hc, hd⟩ := WInv_eval_parts (hinv.wloc _ hmem) hph
      refine inv_set_local O req st hinv i hi
        { st.workers[i] with
          scanned := (st.workers[i]).scanned + 1, phase := Phase.append }
        rfl rfl ?_ le_rfl
        (fun hex => absurd hex (not_exited (Or.inr (Or.inl hph))))
        (by simp [hph]) (by simp [hph]) ?_
      · refine ⟨ha, ?_, ?_, hd, hm⟩
        · show (0 : Int) ≤ (st.workers[i]).scanned + 1
          omega
        · show (st.workers[i]).scanned + 1
              = (st.workers[i]).seed - (st.workers[i]).seedLo + 1
          omega
      · intro hM hold
        rcases hold with hcov | hfull
        · left
          intro s hs1 hs2 hsm
          simp only [passedBound_eval hph] at hcov
          rw [passedBound_append rfl] at hs2
          change s < (st.workers[i]).seed at hs2
          exact hcov s hs1 hs2 hsm
        · exact Or.inr hfull
    -- 5: the seed does not match, advance
    · rw [heq]
      obtain ⟨ha, hb, hc, hd⟩ := WInv_eval_parts (hinv.wloc _ hmem) hph
      refine inv_set_local O req st hinv i hi
        { st.workers[i] with
          scanned := (st.workers[i]).scanned + 1,
          seed := (st.workers[i]).seed + 1, phase := Phase.top }
        rfl rfl ?_
        (by show (st.workers[i]).seed ≤ (st.workers[i]).seed + 1; omega)
        (fun hex => absurd hex (not_exited (Or.inr (Or.inl hph))))
        (by simp [hph]) (by simp [hph]) ?_
      · refine ⟨?_, ?_, ?_, ?_⟩
        · show (st.workers[i]).seedLo ≤ (st.workers[i]).seed + 1
          omega
        · show (0 : Int) ≤ (st.workers[i]).scanned + 1
          omega
        · show (st.workers[i]).scanned + 1
              = (st.workers[i]).seed + 1 - (st.workers[i]).seedLo
          omega
        · show (st.workers[i]).seed + 1 ≤ (st.workers[i]).seedEnd + 1
          omega
      · intro hM hold
        rcases hold with hcov | hfull
        · left
          intro s hs1 hs2 hsm
          simp only [passedBound_eval hph] at hcov
          rw [passedBound_top rfl] at hs2
          change s < (st.workers[i]).seed + 1 at hs2
          change (st.workers[i]).seedLo ≤ s at hs1
          by_cases hlast : s = (st.workers[i]).seed
          · subst hlast
            rw [hsm] at hm
            exact Bool.noConfusion hm
          · exact hcov s hs1 (by omega) hsm
        · exact Or.inr hfull
    -- 6: publish the match; the result is now full, exit
    · rw [heq]
      exact inv_set_append O req h1 st hinv i hi hph hc1
        { st.workers[i] with phase := Phase.contribute } (Or.inl rfl)
        (fun _ => hc2)
    -- 7: publish the match, continue scanning
    · rw [heq]
      refine inv_set_append O req h1 st hinv i hi hph hc1
        { st.workers[i] with
          seed := (st.workers[i]).seed + 1, phase := Phase.top }
        (Or.inr rfl) ?_
      intro he
      exfalso
      have := congrArg WState.phase he
      simp at this
    -- 8: another worker filled the result first, exit
    · rw [heq]
      obtain ⟨ha, hb, hc, hd, hsm⟩ := WInv_append_parts (hinv.wloc _ hmem) hph
      refine inv_set_local O req st hinv i hi
        { st.workers[i] with phase := Phase.contribute } rfl rfl ?_ le_rfl
        (fun _ => Or.inl rfl) (by simp [hph]) (by simp [hph]) ?_
      · refine ⟨ha, hb, ?_⟩
        show (st.workers[i]).scanned
            ≤ (st.workers[i]).seedEnd - (st.workers[i]).seedLo + 1
        omega
      · intro hM hold
        right
        refine matchSeeds_subset_of_count_ge O req _ ?_ hinv.nodup ?_
        · intro s hs
          obtain ⟨u1, u2, u3⟩ := hinv.seeds_ok s hs
          exact mem_matchSeeds.mpr ⟨u1, u2, u3⟩
        · unfold SearchResult.count at hc2
          omega
    -- 9: fold the local scan count into the shared total
    · rw [heq]
      exact inv_set_contribute O req st hinv i hi hph
    -- 10: a finished worker takes no step
    · rw [heq]
      refine inv_set_local O req st hinv i hi (st.workers[i]) rfl rfl
        (hinv.wloc _ hmem) le_rfl (fun hex => hex) (by simp) rfl
        (fun _ hold => hold)

theorem initWorkers_length (req : SearchRequest) :
    (initWorkers req).length = (nthreads req).toNat := by
  unfold initWorkers
  simp

theorem initWorkers_getElem (req : SearchRequest) (i : Nat)
    (h : i < (initWorkers req).length) :
    (initWorkers req)[i] = initWorker req (i : Int) := by
  unfold initWorkers at h ⊢
  simp

theorem sum_over_initWorkers (req : SearchRequest) (f : WState → Int) :
    ((initWorkers req).map f).sum
      = ((List.range (nthreads req).toNat).map
          (fun i : Nat => f (initWorker req (i : Int)))).sum := by
  unfold initWorkers
  rw [List.map_map]
  rfl

/-- The invariant holds right after the workers are spawned. -/
theorem inv_init (O : Oracle) (req : SearchRequest) (h1 : 1 ≤ totalSeeds req) :
    Inv O req ⟨⟨[], 0⟩, initWorkers req⟩ := by
  have hNp := nthreads_pos req h1
  have hloc : ∀ w ∈ initWorkers req, WInv O req w := by
    intro w hw
    unfold initWorkers at hw
    rw [List.mem_map] at hw
    obtain ⟨k, hk, rfl⟩ := hw
    rw [List.mem_range] at hk
    have hkN : (k : Int) ≤ nthreads req - 1 := by omega
    have hle := partLo_le_partHi req h1 (i := (k : Int)) (by omega) hkN
    refine ⟨le_refl _, le_refl _, ?_, ?_⟩
    · show (0 : Int) = partLo req (k : Int) - partLo req (k : Int)
      omega
    · show partLo req (k : Int) ≤ partHi req (k : Int) + 1
      omega
  refine ⟨initWorkers_length req, ?_, hloc, ?_, ?_, ?_, ?_, ?_, ?_, ?_⟩
  · intro i h
    have h' : i < (initWorkers req).length := h
    show (initWorkers req)[i].seedLo = partLo req (i : Int)
      ∧ (initWorkers req)[i].seedEnd = partHi req (i : Int)
    rw [initWorkers_getElem req i h']
    exact ⟨rfl, rfl⟩
  · intro s hs
    exact absurd hs (List.not_mem_nil s)
  · intro h
    simpa using h
  · exact List.nodup_nil
  · intro s hs
    exact absurd hs (List.not_mem_nil s)
  · show (0 : Int) = ((initWorkers req).map
        (fun w => if w.phase = Phase.finished then w.scanned else 0)).sum
    rw [sum_over_initWorkers]
    simp [initWorker]
  · show ((List.length ([] : List Int) : Int))
        + ((initWorkers req).map
            (fun w => if w.phase = Phase.append then (1 : Int) else 0)).sum
        ≤ ((initWorkers req).map (fun w => w.scanned)).sum
    rw [sum_over_initWorkers, sum_over_initWorkers]
    simp [initWorker]
  · intro hM i h
    left
    intro s hs1 hs2 hsm
    exfalso
    have h' : i < (initWorkers req).length := h
    have hs1' : (initWorkers req)[i].seedLo ≤ s := hs1
    have hs2' : s < passedBound (initWorkers req)[i] := hs2
    rw [initWorkers_getElem req i h'] at hs1' hs2'
    rw [passedBound_top rfl] at hs2'
    change partLo req (i : Int) ≤ s at hs1'
    change s < partLo req (i : Int) at hs2'
    omega

/-- The invariant holds after any schedule. -/
theorem inv_run (O : Oracle) (req : SearchRequest) (h1 : 1 ≤ totalSeeds req)
    (st : SysState) (hinv : Inv O req st) (sched : List Nat) :
    Inv O req (sysRun O req st sched) := by
  induction sched generalizing st with
  | nil => exact hinv
  | cons i rest ih =>
      rw [show sysRun O req st (i :: rest)
          = sysRun O req (sysStep O req st i) rest from rfl]
      exact ih _ (inv_preserved O req h1 st hinv i)

/-- The invariant holds in every reachable state of `search_seeds`. -/
theorem inv_search (O : Oracle) (req : SearchRequest) (h1 : 1 ≤ totalSeeds req)
    (sched : List Nat) :
    Inv O req (sysRun O req ⟨⟨[], 0⟩, initWorkers req⟩ sched) :=
  inv_run O req h1 _ (inv_init O req h1) sched

theorem passedBound_finished {w : WState} (h : w.phase = Phase.finished) :
    passedBound w = w.seedEnd + 1 := by
  unfold passedBound
  rw [h]

theorem map_eq_range_map {α : Type} (f : α → Int) :
    ∀ (l : List α) (g : Nat → Int),
      (∀ i (h : i < l.length), f l[i] = g i) →
      l.map f = (List.range l.length).map g
  | [], g, h => by simp
  | x :: xs, g, h => by
      rw [List.map_cons, show (x :: xs).length = xs.length + 1 from rfl,
          List.range_succ_eq_map, List.map_cons, List.map_map]
      have h0 := h 0 (by simp)
      rw [show (x :: xs)[0] = x from rfl] at h0
      rw [h0]
      have hrec := map_eq_range_map f xs (fun i => g (i + 1)) (fun i hi => by
        have := h (i + 1) (by simpa using Nat.succ_lt_succ hi)
        simpa using this)
      rw [hrec]
      rfl

/-! ### Final-state facts about `search_seeds` -/

/-- Every seed of the shared result after any schedule lies in the request
    range and passes the full query conjunction. -/
theorem run_seeds_spec (O : Oracle) (req : SearchRequest)
    (h1 : 1 ≤ totalSeeds req) (sched : List Nat) :
    ∀ s ∈ (sysRun O req ⟨⟨[], 0⟩, initWorkers req⟩ sched).shared.seeds,
      req.seed_start ≤ s ∧ s ≤ req.seed_end ∧ seed_matches O req s = true :=
  (inv_search O req h1 sched).seeds_ok

/-- The shared result never holds more than `max_results` seeds. -/
theorem run_count_le (O : Oracle) (req : SearchRequest)
    (h1 : 1 ≤ totalSeeds req) (sched : List Nat)
    (hmr : 0 ≤ req.max_results) :
    ((sysRun O req ⟨⟨[], 0⟩, initWorkers req⟩ sched).shared.seeds.length : Int)
      ≤ req.max_results :=
  (inv_search O req h1 sched).count_le hmr

/-- The shared result never holds a seed twice. -/
theorem run_nodup (O : Oracle) (req : SearchRequest)
    (h1 : 1 ≤ totalSeeds req) (sched : List Nat) :
    (sysRun O req ⟨⟨[], 0⟩, initWorkers req⟩ sched).shared.seeds.Nodup :=
  (inv_search O req h1 sched).nodup

/-- At the join point the shared scanned total is the sum of every worker's
    local counter. -/
theorem run_scanned_eq_sum (O : Oracle) (req : SearchRequest)
    (h1 : 1 ≤ totalSeeds req) (sched : List Nat)
    (hfin : allFinished (sysRun O req ⟨⟨[], 0⟩, initWorkers req⟩ sched)) :
    (sysRun O req ⟨⟨[], 0⟩, initWorkers req⟩ sched).shared.scanned
      = sumScanned (sysRun O req ⟨⟨[], 0⟩, initWorkers req⟩ sched) := by
  have hinv := inv_search O req h1 sched
  rw [hinv.scanned_sum]
  unfold sumContributed sumScanned
  congr 1
  apply List.map_congr_left
  intro w hw
  rw [hfin w hw]
  simp

/-- At the join point the result size is bounded by the scanned total. -/
theorem run_count_le_scanned (O : Oracle) (req : SearchRequest)
    (h1 : 1 ≤ totalSeeds req) (sched : List Nat)
    (hfin : allFinished (sysRun O req ⟨⟨[], 0⟩, initWorkers req⟩ sched)) :
    ((sysRun O req ⟨⟨[], 0⟩, initWorkers req⟩ sched).shared.seeds.length : Int)
      ≤ (sysRun O req ⟨⟨[], 0⟩, initWorkers req⟩ sched).shared.scanned := by
  have hinv := inv_search O req h1 sched
  have h0 := hinv.count_scanned
  have hna : 0 ≤ numAppend (sysRun O req ⟨⟨[], 0⟩, initWorkers req⟩ sched) := by
    unfold numAppend
    apply List.sum_nonneg
    intro x hx
    rw [List.mem_map] at hx
    obtain ⟨w, hw, rfl⟩ := hx
    split <;> omega
  rw [run_scanned_eq_sum O req h1 sched hfin]
  omega

/-- At the join point the scanned total is bounded by the range size. -/
theorem run_scanned_le_total (O : Oracle) (req : SearchRequest)
    (h1 : 1 ≤ totalSeeds req) (sched : List Nat)
    (hfin : allFinished (sysRun O req ⟨⟨[], 0⟩, initWorkers req⟩ sched)) :
    (sysRun O req ⟨⟨[], 0⟩, initWorkers req⟩ sched).shared.scanned
      ≤ totalSeeds req := by
  have hinv := inv_search O req h1 sched
  rw [run_scanned_eq_sum O req h1 sched hfin]
  unfold sumScanned
  have hle : ((sysRun O req ⟨⟨[], 0⟩, initWorkers req⟩ sched).workers.map
        (fun w => w.scanned)).sum
      ≤ ((sysRun O req ⟨⟨[], 0⟩, initWorkers req⟩ sched).workers.map
        (fun w => w.seedEnd - w.seedLo + 1)).sum := by
    apply List.sum_le_sum
    intro w hw
    have hwi := hinv.wloc w hw
    obtain ⟨_, _, hc⟩ := hwi
    rw [hfin w hw] at hc
    exact hc
  have heq : ((sysRun O req ⟨⟨[], 0⟩, initWorkers req⟩ sched).workers.map
        (fun w => w.seedEnd - w.seedLo + 1)).sum
      = ((List.range (nthreads req).toNat).map
          (fun i : Nat => partHi req (i : Int) - partLo req (i : Int) + 1)).sum := by
    rw [map_eq_range_map (fun w => w.seedEnd - w.seedLo + 1)
        ((sysRun O req ⟨⟨[], 0⟩, initWorkers req⟩ sched).workers)
        (fun i : Nat => partHi req (i : Int) - partLo req (i : Int) + 1)
        (fun i hi => by
          obtain ⟨hp1, hp2⟩ := hinv.wpart i hi
          simp only [hp1, hp2]),
        hinv.wlen]
  rw [heq] at hle
  rw [part_size_sum req h1] at hle
  exact hle

/-- When `max_results` can hold every match, a complete run publishes exactly
    the whole match set. -/
theorem run_finds_all (O : Oracle) (req : SearchRequest)
    (h1 : 1 ≤ totalSeeds req) (sched : List Nat)
    (hfin : allFinished (sysRun O req ⟨⟨[], 0⟩, initWorkers req⟩ sched))
    (hM : ((matchSeeds O req).length : Int) ≤ req.max_results) :
    ∀ s, s ∈ (sysRun O req ⟨⟨[], 0⟩, initWorkers req⟩ sched).shared.seeds
      ↔ s ∈ matchSeeds O req := by
  have hinv := inv_search O req h1 sched
  intro s
  constructor
  · intro hs
    obtain ⟨u1, u2, u3⟩ := hinv.seeds_ok s hs
    exact mem_matchSeeds.mpr ⟨u1, u2, u3⟩
  · intro hs
    obtain ⟨u1, u2, u3⟩ := mem_matchSeeds.mp hs
    obtain ⟨j, hj0, hjN, hjlo, hjhi⟩ := part_cover req h1 u1 u2
    have hjnat : (j.toNat : Int) = j := Int.toNat_of_nonneg hj0
    have hjlen : j.toNat < (sysRun O req ⟨⟨[], 0⟩, initWorkers req⟩
        sched).workers.length := by
      rw [hinv.wlen]
      have hNp := nthreads_pos req h1
      omega
    rcases hinv.mcov hM j.toNat hjlen with hcov | hfull
    · obtain ⟨hp1, hp2⟩ := hinv.wpart j.toNat hjlen
      refine hcov s ?_ ?_ u3
      · rw [hp1, hjnat]
        exact hjlo
      · rw [passedBound_finished
            (hfin _ (List.getElem_mem hjlen)), hp2, hjnat]
        omega
    · exact hfull s hs

/-! ### The streaming machine simulates the batched one step for step -/

theorem stream_thread_worker_step_sim (O : Oracle) (req : SearchRequest)
    (w : WState) (r : StreamShared) :
    ((stream_thread_worker_step O req w r).1,
      (stream_thread_worker_step O req w r).2.toSearch)
      = thread_worker_step O req w r.toSearch := by
  cases hph : w.phase <;>
    simp only [stream_thread_worker_step, thread_worker_step, hph,
      StreamShared.toSearch, SearchResult.count] <;>
    split_ifs <;>
    simp [StreamShared.toSearch]

theorem streamSysStep_sim (O : Oracle) (req : SearchRequest)
    (st : StreamSysState) (i : Nat) :
    (streamSysStep O req st i).toSys = sysStep O req st.toSys i := by
  unfold streamSysStep sysStep
  rw [show st.toSys.workers = st.workers from rfl]
  cases hw : st.workers[i]? with
  | none => rfl
  | some w =>
      show (⟨(stream_thread_worker_step O req w st.shared).2.toSearch,
             st.workers.set i (stream_thread_worker_step O req w st.shared).1⟩
            : SysState)
        = ⟨(thread_worker_step O req w st.toSys.shared).2,
           st.workers.set i (thread_worker_step O req w st.toSys.shared).1⟩
      have h := stream_thread_worker_step_sim O req w st.shared
      have h1 := congrArg Prod.fst h
      have h2 := congrArg Prod.snd h
      simp only at h1 h2
      rw [show st.toSys.shared = st.shared.toSearch from rfl, ← h1, ← h2]

theorem streamRun_sim (O : Oracle) (req : SearchRequest)
    (st : StreamSysState) (sched : List Nat) :
    (streamRun O req st sched).toSys = sysRun O req st.toSys sched := by
  induction sched generalizing st with
  | nil => rfl
  | cons i rest ih =>
      rw [show streamRun O req st (i :: rest)
            = streamRun O req (streamSysStep O req st i) rest from rfl,
          show sysRun O req st.toSys (i :: rest)
            = sysRun O req (sysStep O req st.toSys i) rest from rfl,
          ih, streamSysStep_sim]

/-- Run for run (same schedule), `search_seeds_stream` delivers exactly the
    seed list that `search_seeds` collects from a zeroed result, and reports
    the same scanned total. -/
theorem search_seeds_stream_sim (O : Oracle) (req : SearchRequest)
    (sched : List Nat) :
    (search_seeds_stream O req sched).delivered
        = (search_seeds O req ⟨[], 0⟩ sched).seeds
      ∧ (search_seeds_stream O req sched).scanned
        = (search_seeds O req ⟨[], 0⟩ sched).scanned := by
  unfold search_seeds_stream search_seeds
  split
  · exact ⟨rfl, rfl⟩
  · have h := streamRun_sim O req ⟨⟨[], 0⟩, initWorkers req⟩ sched
    have h2 := congrArg SysState.shared h
    have e1 := congrArg SearchResult.seeds h2
    have e2 := congrArg SearchResult.scanned h2
    exact ⟨e1, e2⟩

/-- Completion of a streaming schedule coincides with completion of the same
    schedule on the batched machine. -/
theorem stream_completes_iff (O : Oracle) (req : SearchRequest)
    (sched : List Nat) :
    stream_completes O req sched
      ↔ search_completes O req ⟨[], 0⟩ sched := by
  unfold stream_completes search_completes
  constructor <;> intro h <;> rcases h with h | h
  · exact Or.inl h
  · right
    have hs := streamRun_sim O req ⟨⟨[], 0⟩, initWorkers req⟩ sched
    have hw := congrArg SysState.workers hs
    intro w hw'
    rw [show (sysRun O req ⟨⟨[], 0⟩, initWorkers req⟩ sched).workers
          = (sysRun O req (StreamSysState.toSys ⟨⟨[], 0⟩, initWorkers req⟩)
              sched).workers from rfl, ← hw] at hw'
    exact h w hw'
  · exact Or.inl h
  · right
    have hs := streamRun_sim O req ⟨⟨[], 0⟩, initWorkers req⟩ sched
    have hw := congrArg SysState.workers hs
    intro w hw'
    rw [show (streamRun O req ⟨⟨[], 0⟩, initWorkers req⟩ sched).workers
          = (streamRun O req ⟨⟨[], 0⟩, initWorkers req⟩ sched).toSys.workers
          from rfl, hw] at hw'
    exact h w hw'

/-! ### `search_seeds` only appends to the caller's result -/

theorem sysStep_extends (O : Oracle) (req : SearchRequest) (st : SysState)
    (h : ∀ w ∈ st.workers, 0 ≤ w.scanned) (i : Nat) :
    (∃ d, (sysStep O req st i).shared.seeds = st.shared.seeds ++ d)
    ∧ st.shared.scanned ≤ (sysStep O req st i).shared.scanned
    ∧ (∀ w ∈ (sysStep O req st i).workers, 0 ≤ w.scanned) := by
  unfold sysStep
  cases hw : st.workers[i]? with
  | none => exact ⟨⟨[], by simp⟩, le_refl _, h⟩
  | some w =>
    obtain ⟨hi, hwi⟩ := List.getElem?_eq_some.mp hw
    subst hwi
    have hw0 : 0 ≤ (st.workers[i]).scanned := h _ (List.getElem_mem hi)
    show (∃ d, (thread_worker_step O req (st.workers[i]) st.shared).2.seeds
          = st.shared.seeds ++ d)
      ∧ st.shared.scanned
          ≤ (thread_worker_step O req (st.workers[i]) st.shared).2.scanned
      ∧ (∀ w ∈ st.workers.set i
            (thread_worker_step O req (st.workers[i]) st.shared).1,
          0 ≤ w.scanned)
    rcases thread_worker_step_spec O req (st.workers[i]) st.shared with
      ⟨hph, _, heq⟩ | ⟨hph, _, _, _, heq⟩ | ⟨hph, _, heq⟩ |
      ⟨hph, _, heq⟩ | ⟨hph, _, heq⟩ |
      ⟨hph, _, _, heq⟩ | ⟨hph, _, _, heq⟩ | ⟨hph, _, _, heq⟩ |
      ⟨hph, heq⟩ | ⟨hph, heq⟩ <;>
      rw [heq] <;>
      refine ⟨?_, ?_, fun w'' hmem => ?_⟩ <;>
      first
        | exact ⟨[], (List.append_nil _).symm⟩
        | exact ⟨[(st.workers[i]).seed], rfl⟩
        | exact le_refl _
        | exact (show st.shared.scanned
            ≤ st.shared.scanned + (st.workers[i]).scanned by omega)
        | exact (List.mem_or_eq_of_mem_set hmem).elim (fun hm => h _ hm)
            (fun hm => by
              rw [hm]
              first
                | exact hw0
                | exact (show (0 : Int) ≤ (st.workers[i]).scanned + 1 by omega))

theorem run_extends (O : Oracle) (req : SearchRequest) (st : SysState)
    (h : ∀ w ∈ st.workers, 0 ≤ w.scanned) (sched : List Nat) :
    (∃ d, (sysRun O req st sched).shared.seeds = st.shared.seeds ++ d)
    ∧ st.shared.scanned ≤ (sysRun O req st sched).shared.scanned := by
  induction sched generalizing st with
  | nil => exact ⟨⟨[], (List.append_nil _).symm⟩, le_refl _⟩
  | cons i rest ih =>
      obtain ⟨⟨d1, hd1⟩, hs1, hkeep⟩ := sysStep_extends O req st h i
      obtain ⟨⟨d2, hd2⟩, hs2⟩ := ih (sysStep O req st i) hkeep
      rw [show sysRun O req st (i :: rest)
          = sysRun O req (sysStep O req st i) rest from rfl]
      refine ⟨⟨d1 ++ d2, ?_⟩, le_trans hs1 hs2⟩
      rw [hd2, hd1, List.append_assoc]

/-! ### Concrete executions of the fixtures (shared by the witnesses) -/

theorem testSched_completes :
    search_completes testOracle testReq ⟨[], 0⟩ testSched := by
  decide

theorem testSched2_completes :
    search_completes testOracle testReq ⟨[], 0⟩ testSched2 := by
  decide

theorem testSched_allFinished :
    allFinished (sysRun testOracle testReq
      ⟨⟨[], 0⟩, initWorkers testReq⟩ testSched) := by
  decide

theorem testSchedA_completes :
    search_completes testOracle testReq1 ⟨[], 0⟩ testSchedA := by
  decide

theorem testSchedB_completes :
    search_completes testOracle testReq1 ⟨[], 0⟩ testSchedB := by
  decide

theorem testReq_matches_fit :
    ((matchSeeds testOracle testReq).length : Int) ≤ testReq.max_results := by
  decide

/-! ### Claims -/

/-- C1: for every request, every oracle and every complete interleaving, each
    seed of the returned result lies in `[seed_start, seed_end]` and
    re-evaluating the full structure-query conjunction (`seed_matches`, the
    `matches` predicate with a freshly configured generator) on it yields
    `true`. -/
theorem claim_c1_seeds_in_range_and_match (O : Oracle) (req : SearchRequest)
    (sched : List Nat) (hdone : search_completes O req ⟨[], 0⟩ sched) :
    ∀ s ∈ (search_seeds O req ⟨[], 0⟩ sched).seeds,
      req.seed_start ≤ s ∧ s ≤ req.seed_end
        ∧ seed_matches O req s = true := by
  unfold search_seeds
  split
  · intro s hs
    exact absurd hs (List.not_mem_nil s)
  · next h => exact run_seeds_spec O req (by omega) sched

theorem claim_c1_witness :
    search_completes testOracle testReq ⟨[], 0⟩ testSched
    ∧ ∀ s ∈ (search_seeds testOracle testReq ⟨[], 0⟩ testSched).seeds,
        testReq.seed_start ≤ s ∧ s ≤ testReq.seed_end
          ∧ seed_matches testOracle testReq s = true :=
  ⟨testSched_completes,
   claim_c1_seeds_in_range_and_match testOracle testReq testSched
     testSched_completes⟩

/-- C2: with a non-negative `max_results` (every validated request has
    `max_results ≥ 1`), the batched result never holds more than
    `max_results` seeds at any point of any interleaving (every reachable
    state is `search_seeds` of some schedule), and the streaming variant
    invokes its callback at most `max_results` times per request. -/
theorem claim_c2_result_bounded (O : Oracle) (req : SearchRequest)
    (hmr : 0 ≤ req.max_results) (sched : List Nat) :
    ((search_seeds O req ⟨[], 0⟩ sched).seeds.length : Int) ≤ req.max_results
    ∧ ((search_seeds_stream O req sched).delivered.length : Int)
        ≤ req.max_results := by
  have hb : ((search_seeds O req ⟨[], 0⟩ sched).seeds.length : Int)
      ≤ req.max_results := by
    unfold search_seeds
    split
    · simpa using hmr
    · next h => exact run_count_le O req (by omega) sched hmr
  refine ⟨hb, ?_⟩
  rw [(search_seeds_stream_sim O req sched).1]
  exact hb

theorem claim_c2_witness :
    (0 : Int) ≤ testReq.max_results
    ∧ ((search_seeds testOracle testReq ⟨[], 0⟩ testSched).seeds.length : Int)
        ≤ testReq.max_results
    ∧ ((search_seeds_stream testOracle testReq testSched).delivered.length : Int)
        ≤ testReq.max_results :=
  ⟨by decide, claim_c2_result_bounded testOracle testReq (by decide) testSched⟩

/-- C3: run for run (the same interleaving of the same worker pool), the
    sequence of seeds delivered through the streaming search's callback is
    exactly the batched result's seed list — so the delivered multiset equals
    the batched seed set — and no seed is ever delivered twice. -/
theorem claim_c3_stream_equiv (O : Oracle) (req : SearchRequest)
    (sched : List Nat) :
    (search_seeds_stream O req sched).delivered
        = (search_seeds O req ⟨[], 0⟩ sched).seeds
    ∧ (search_seeds_stream O req sched).delivered.Nodup := by
  refine ⟨(search_seeds_stream_sim O req sched).1, ?_⟩
  rw [(search_seeds_stream_sim O req sched).1]
  unfold search_seeds
  split
  · exact List.nodup_nil
  · next h => exact run_nodup O req (by omega) sched

theorem claim_c3_witness :
    (search_seeds_stream testOracle testReq testSched).delivered
        = (search_seeds testOracle testReq ⟨[], 0⟩ testSched).seeds
    ∧ (search_seeds_stream testOracle testReq testSched).delivered.Nodup :=
  claim_c3_stream_equiv testOracle testReq testSched

/-- C4: for every request with at least one seed, the coordinator spawns
    `N = min(16, total)` workers; worker `i` receives the sub-range
    `[start + i*(total/N), start + (i+1)*(total/N) - 1]` with the last
    worker's upper bound replaced by `seed_end`; the sub-ranges are pairwise
    disjoint and cover the range exactly. -/
theorem claim_c4_partition (req : SearchRequest) (h1 : 1 ≤ totalSeeds req) :
    nthreads req = min MAX_THREADS (totalSeeds req)
    ∧ (initWorkers req).length = (nthreads req).toNat
    ∧ chunkSize req = totalSeeds req / nthreads req
    ∧ (∀ i : Int, 0 ≤ i → i ≤ nthreads req - 1 →
        partLo req i = req.seed_start + i * (totalSeeds req / nthreads req)
        ∧ partHi req i = (if i = nthreads req - 1 then req.seed_end
            else req.seed_start + (i + 1) * (totalSeeds req / nthreads req) - 1))
    ∧ (∀ i j : Int, 0 ≤ i → i < j → j ≤ nthreads req - 1 →
        partHi req i < partLo req j)
    ∧ (∀ s : Int, (req.seed_start ≤ s ∧ s ≤ req.seed_end)
        ↔ ∃ i : Int, 0 ≤ i ∧ i ≤ nthreads req - 1
            ∧ partLo req i ≤ s ∧ s ≤ partHi req i) := by
  have hed := chunkSize_eq_ediv req h1
  refine ⟨?_, initWorkers_length req, hed, ?_, ?_, ?_⟩
  · unfold nthreads MAX_THREADS
    split <;> omega
  · intro i h0 hN
    constructor
    · rw [← hed]
      rfl
    · unfold partHi partLo
      rw [← hed]
      split <;> [rfl ; ring]
  · intro i j h0 hij hN
    exact part_disjoint req h1 h0 hij hN
  · intro s
    constructor
    · intro ⟨hlo, hhi⟩
      exact part_cover req h1 hlo hhi
    · intro ⟨i, h0, hN, hlo, hhi⟩
      have ha := partLo_ge_start req h1 h0
      have hb := partHi_le_end req h1 h0 hN
      omega

theorem claim_c4_witness :
    (1 : Int) ≤ totalSeeds testReq
    ∧ nthreads testReq = min MAX_THREADS (totalSeeds testReq)
    ∧ (initWorkers testReq).length = (nthreads testReq).toNat :=
  ⟨by decide,
   (claim_c4_partition testReq (by decide)).1,
   (claim_c4_partition testReq (by decide)).2.1⟩

/-- C5 counterexample: the claim says a range of 10⁹ + 1 seeds is rejected,
    but `validate_seed_range 0 10⁹` — whose inclusive range holds exactly
    10⁹ + 1 seeds — is accepted: the validator only rejects when
    `seed_end - seed_start > 10⁹`. -/
theorem claim_c5_counterexample :
    validate_seed_range 0 1000000000 = RangeCheck.ok
    ∧ (1000000000 : Int) - 0 + 1 = 1000000000 + 1 := by
  constructor
  · decide
  · norm_num

/-- C5 amended: for `seed_start ≤ seed_end`, the validator rejects with
    "seed range must not exceed 1 billion" exactly when
    `seed_end - seed_start > 10⁹`, i.e. when the range holds more than
    10⁹ + 1 seeds: sizes 10⁹ and 10⁹ + 1 are accepted and 10⁹ + 2 is
    rejected. -/
theorem claim_c5_range_check_amended (s e : Int) (hse : s ≤ e) :
    (validate_seed_range s e = RangeCheck.tooLarge ↔ 1000000000 < e - s)
    ∧ validate_seed_range 0 999999999 = RangeCheck.ok
    ∧ validate_seed_range 0 1000000000 = RangeCheck.ok
    ∧ validate_seed_range 0 1000000001 = RangeCheck.tooLarge := by
  refine ⟨?_, by decide, by decide, by decide⟩
  unfold validate_seed_range
  rw [if_neg (by omega)]
  by_cases h2 : 1000000000 < e - s
  · rw [if_pos h2]
    simp [h2]
  · rw [if_neg h2]
    simp [h2]

theorem claim_c5_witness :
    (validate_seed_range 0 7 = RangeCheck.tooLarge ↔ (1000000000 : Int) < 7 - 0)
    ∧ validate_seed_range 0 999999999 = RangeCheck.ok :=
  ⟨(claim_c5_range_check_amended 0 7 (by norm_num)).1,
   (claim_c5_range_check_amended 0 7 (by norm_num)).2.1⟩

/-- C6: after every worker of a complete run has been joined, the result's
    scanned count equals the sum of the per-worker local scan counters (each
    contributed exactly once, at the worker's final mutex acquisition), and
    `count ≤ scanned ≤ seed_end - seed_start + 1`. -/
theorem claim_c6_scanned_accounting (O : Oracle) (req : SearchRequest)
    (h1 : 1 ≤ totalSeeds req) (sched : List Nat)
    (hfin : allFinished (sysRun O req ⟨⟨[], 0⟩, initWorkers req⟩ sched)) :
    (search_seeds O req ⟨[], 0⟩ sched).scanned
        = sumScanned (sysRun O req ⟨⟨[], 0⟩, initWorkers req⟩ sched)
    ∧ ((search_seeds O req ⟨[], 0⟩ sched).seeds.length : Int)
        ≤ (search_seeds O req ⟨[], 0⟩ sched).scanned
    ∧ (search_seeds O req ⟨[], 0⟩ sched).scanned ≤ totalSeeds req := by
  have hs : search_seeds O req ⟨[], 0⟩ sched
      = (sysRun O req ⟨⟨[], 0⟩, initWorkers req⟩ sched).shared := by
    unfold search_seeds
    rw [if_neg (by omega)]
  rw [hs]
  exact ⟨run_scanned_eq_sum O req h1 sched hfin,
         run_count_le_scanned O req h1 sched hfin,
         run_scanned_le_total O req h1 sched hfin⟩

theorem claim_c6_witness :
    (1 : Int) ≤ totalSeeds testReq
    ∧ allFinished (sysRun testOracle testReq
        ⟨⟨[], 0⟩, initWorkers testReq⟩ testSched)
    ∧ (search_seeds testOracle testReq ⟨[], 0⟩ testSched).scanned
        = sumScanned (sysRun testOracle testReq
            ⟨⟨[], 0⟩, initWorkers testReq⟩ testSched)
    ∧ ((search_seeds testOracle testReq ⟨[], 0⟩ testSched).seeds.length : Int)
        ≤ (search_seeds testOracle testReq ⟨[], 0⟩ testSched).scanned
    ∧ (search_seeds testOracle testReq ⟨[], 0⟩ testSched).scanned
        ≤ totalSeeds testReq :=
  ⟨by decide, testSched_allFinished,
   claim_c6_scanned_accounting testOracle testReq (by decide) testSched
     testSched_allFinished⟩

/-- C7 counterexample: two complete executions of `search_seeds` on the same
    request (two matching seeds, `max_results = 1`) return different seed
    sets — `[0]` under one interleaving and `[1]` under another — so two runs
    need not agree on the set of seeds, only on its size being capped. -/
theorem claim_c7_counterexample :
    search_completes testOracle testReq1 ⟨[], 0⟩ testSchedA
    ∧ search_completes testOracle testReq1 ⟨[], 0⟩ testSchedB
    ∧ (search_seeds testOracle testReq1 ⟨[], 0⟩ testSchedA).seeds = [0]
    ∧ (search_seeds testOracle testReq1 ⟨[], 0⟩ testSchedB).seeds = [1]
    ∧ (0 : Int) ∈ (search_seeds testOracle testReq1 ⟨[], 0⟩ testSchedA).seeds
    ∧ (0 : Int) ∉ (search_seeds testOracle testReq1 ⟨[], 0⟩ testSchedB).seeds :=
  ⟨testSchedA_completes, testSchedB_completes,
   by decide, by decide, by decide, by decide⟩

/-- C7 amended: membership determinism holds whenever `max_results` is at
    least the number of matching seeds in the range: any two complete runs
    return the same seed set (both equal the full match set). -/
theorem claim_c7_determinism_amended (O : Oracle) (req : SearchRequest)
    (h1 : 1 ≤ totalSeeds req)
    (hM : ((matchSeeds O req).length : Int) ≤ req.max_results)
    (sched₁ sched₂ : List Nat)
    (hf₁ : search_completes O req ⟨[], 0⟩ sched₁)
    (hf₂ : search_completes O req ⟨[], 0⟩ sched₂) :
    ∀ s, s ∈ (search_seeds O req ⟨[], 0⟩ sched₁).seeds
      ↔ s ∈ (search_seeds O req ⟨[], 0⟩ sched₂).seeds := by
  have hfa₁ : allFinished (sysRun O req ⟨⟨[], 0⟩, initWorkers req⟩ sched₁) := by
    rcases hf₁ with h | h
    · omega
    · exact h
  have hfa₂ : allFinished (sysRun O req ⟨⟨[], 0⟩, initWorkers req⟩ sched₂) := by
    rcases hf₂ with h | h
    · omega
    · exact h
  have hs : ∀ sched, search_seeds O req ⟨[], 0⟩ sched
      = (sysRun O req ⟨⟨[], 0⟩, initWorkers req⟩ sched).shared := by
    intro sched
    unfold search_seeds
    rw [if_neg (by omega)]
  intro s
  rw [hs sched₁, hs sched₂, run_finds_all O req h1 sched₁ hfa₁ hM s,
      run_finds_all O req h1 sched₂ hfa₂ hM s]

theorem claim_c7_witness :
    (1 : Int) ≤ totalSeeds testReq
    ∧ ((matchSeeds testOracle testReq).length : Int) ≤ testReq.max_results
    ∧ ∀ s, s ∈ (search_seeds testOracle testReq ⟨[], 0⟩ testSched).seeds
        ↔ s ∈ (search_seeds testOracle testReq ⟨[], 0⟩ testSched2).seeds :=
  ⟨by decide, testReq_matches_fit,
   claim_c7_determinism_amended testOracle testReq (by decide)
     testReq_matches_fit testSched testSched2
     testSched_completes testSched2_completes⟩

/-- C8: when the query's structure config resolves, `check_biome_filter` with
    `biome ≥ 0` accepts iff the biome sampled at scale 4 at
    `(x >> 2, 15, z >> 2)` with the generator repointed to
    `(sconf.dim, seed)` equals the query's biome, and returns the generator
    restored to `(DIM_OVERWORLD, seed)` (keeping its version); with
    `biome < 0` it accepts unconditionally and leaves the generator
    untouched. -/
theorem claim_c8_biome_filter (O : Oracle) (g : Generator)
    (sq : StructureQuery) (mc seed : Int) (pos : Pos)
    (sconf : StructureConfig)
    (hconf : O.getStructureConfig sq.type mc = some sconf) :
    (0 ≤ sq.biome →
      check_biome_filter O g sq mc seed pos
        = ((O.getBiomeAt ⟨g.mc, sconf.dim, seed⟩ 4
              (Int.fdiv pos.x 4) 15 (Int.fdiv pos.z 4) == sq.biome),
           ⟨g.mc, DIM_OVERWORLD, seed⟩))
    ∧ (sq.biome < 0 → check_biome_filter O g sq mc seed pos = (true, g)) := by
  constructor
  · intro hb
    unfold check_biome_filter
    rw [if_neg (by omega), hconf]
    rfl
  · intro hb
    unfold check_biome_filter
    rw [if_pos hb]

theorem claim_c8_witness :
    check_biome_filter testOracle ⟨1, 5, 7⟩ ⟨0, 1, 1⟩ 1 42 ⟨8, 12⟩
      = ((testOracle.getBiomeAt ⟨1, 0, 42⟩ 4 2 15 3 == (1 : Int)),
         ⟨1, DIM_OVERWORLD, 42⟩) :=
  (claim_c8_biome_filter testOracle ⟨1, 5, 7⟩ ⟨0, 1, 1⟩ 1 42 ⟨8, 12⟩
    ⟨1, 0⟩ rfl).1 (by decide)

/-- C9: `parse_request` validates `max_distance` as a signed 64-bit value,
    rejecting exactly the values ≤ 0, but stores the accepted value truncated
    to a 32-bit `int`; for `max_distance = 2³²` validation succeeds and the
    stored value is 0, and for `2³² + 2³¹` it succeeds with a negative stored
    value. -/
theorem claim_c9_max_distance_truncation :
    (∀ v : Int, validate_max_distance v = none ↔ v ≤ 0)
    ∧ (∀ v : Int, 0 < v → validate_max_distance v = some (toInt32 v))
    ∧ validate_max_distance (2 ^ 32) = some 0
    ∧ validate_max_distance (2 ^ 32 + 2 ^ 31) = some (-(2 ^ 31)) := by
  refine ⟨?_, ?_, by decide, by decide⟩
  · intro v
    unfold validate_max_distance
    by_cases h : v ≤ 0
    · rw [if_pos h]
      simp [h]
    · rw [if_neg h]
      simp [h]
  · intro v hv
    unfold validate_max_distance
    rw [if_neg (by omega)]

theorem claim_c9_witness :
    validate_max_distance (2 ^ 32) = some (toInt32 (2 ^ 32)) :=
  claim_c9_max_distance_truncation.2.1 (2 ^ 32) (by norm_num)

/-- C10: `search_seeds` never initialises or clears the caller's result: on an
    empty range (`seed_end < seed_start`) it returns with the result object
    completely unchanged, and in general it only appends seeds and only adds
    to the scanned counter — so the documented "empty result" behaviour
    presupposes a zero-initialised result. -/
theorem claim_c10_result_not_initialised (O : Oracle) (req : SearchRequest) :
    (∀ (init : SearchResult) (sched : List Nat),
        req.seed_end < req.seed_start →
        search_seeds O req init sched = init)
    ∧ (∀ (init : SearchResult) (sched : List Nat),
        ∃ d : List Int,
          (search_seeds O req init sched).seeds = init.seeds ++ d
          ∧ init.scanned ≤ (search_seeds O req init sched).scanned) := by
  constructor
  · intro init sched h
    unfold search_seeds
    rw [if_pos (by unfold totalSeeds; omega)]
  · intro init sched
    unfold search_seeds
    split
    · exact ⟨[], (List.append_nil _).symm, le_refl _⟩
    · have hnn : ∀ w ∈ initWorkers req, (0 : Int) ≤ w.scanned := by
        intro w hw
        unfold initWorkers at hw
        rw [List.mem_map] at hw
        obtain ⟨k, _, rfl⟩ := hw
        exact le_refl 0
      obtain ⟨⟨d, hd⟩, hsc⟩ :=
        run_extends O req ⟨init, initWorkers req⟩ hnn sched
      exact ⟨d, hd, hsc⟩

theorem claim_c10_witness :
    ((5 : Int) < 3 →
      search_seeds testOracle
        { testReq with seed_start := 5, seed_end := 3 } ⟨[9], 11⟩ testSched
        = ⟨[9], 11⟩)
    ∧ search_seeds testOracle
        { testReq with seed_start := 5, seed_end := 3 } ⟨[9], 11⟩ testSched
        = ⟨[9], 11⟩ :=
  ⟨fun h => absurd h (by norm_num),
   (claim_c10_result_not_initialised testOracle
      { testReq with seed_start := 5, seed_end := 3 }).1
     ⟨[9], 11⟩ testSched (by decide)⟩

end Cubiomes
